import Mathlib

/-!
# Verification of the Memory Manager core (tag trie, sync service, queue, parser, links)

Shallow embedding of the core of the `vscode-memory-manager` repository:

* `TagSystem.ts`     — hierarchical tag trie plus the flat tag→files map
* `MemoryIndex.ts`   — in-memory document cache
* `MemoryFileParser.ts` — frontmatter parser/validator
* `MemorySynchronizationService.ts` — create/change/delete/refresh/batch reconciliation
* `AsyncQueue.ts`    — sequential event queue
* `MarkdownLinkParser.ts` / `LinkResolutionService.ts` / `ContentInjectionEngine.ts`
  (link handling)

JavaScript strings are modelled as `List Char`; JS `Map`s as association lists
(update-in-place on the first matching key, append when absent, which mirrors
`Map.set`'s key-order semantics); JS `Set<string>`s as `Finset`.
External collaborators (the YAML library, the file system, Node's `path`
module) are parameters of the embedded functions.
-/

set_option autoImplicit false

namespace MemMgr

/-- JS strings are modelled as lists of characters. -/
abbrev Str := List Char

/-- View of a Lean string literal in the character-list model. -/
def strL (s : String) : Str := s.data

/-- JS `string.split(sep)`: splits at every occurrence of `sep`, keeping empty
segments; the result is never empty (`"".split('.') == [""]`). -/
def splitSeg (sep : Char) : Str → List Str
  | [] => [[]]
  | c :: cs =>
    if c = sep then [] :: splitSeg sep cs
    else
      match splitSeg sep cs with
      | [] => [[c]]
      | s :: ss => (c :: s) :: ss

/-- `tag.split('.')` as used throughout `TagSystem.ts`. -/
def splitDots (t : Str) : List Str := splitSeg '.' t

theorem splitSeg_ne_nil (sep : Char) (l : Str) : splitSeg sep l ≠ [] := by
  cases l with
  | nil => simp [splitSeg]
  | cons c cs =>
    simp only [splitSeg]
    split
    · simp
    · cases h : splitSeg sep cs <;> simp

theorem splitSeg_nil (sep : Char) : splitSeg sep [] = [[]] := rfl

theorem splitSeg_cons_sep (sep : Char) (cs : Str) :
    splitSeg sep (sep :: cs) = [] :: splitSeg sep cs := by
  simp [splitSeg]

theorem splitSeg_cons_ne (sep c : Char) (cs : Str) (h : c ≠ sep) :
    splitSeg sep (c :: cs) =
      (c :: (splitSeg sep cs).headI) :: (splitSeg sep cs).tail := by
  simp only [splitSeg, if_neg h]
  cases hs : splitSeg sep cs with
  | nil => exact absurd hs (splitSeg_ne_nil sep cs)
  | cons s ss => simp

/-- Splitting a dot-free string yields the single segment. -/
theorem splitSeg_no_sep (sep : Char) (l : Str) (h : sep ∉ l) :
    splitSeg sep l = [l] := by
  induction l with
  | nil => rfl
  | cons c cs ih =>
    have hc : c ≠ sep := fun hh => h (hh ▸ List.mem_cons_self c cs)
    have hcs : sep ∉ cs := fun hh => h (List.mem_cons_of_mem c hh)
    rw [splitSeg_cons_ne sep c cs hc, ih hcs]
    simp

/-- Splitting `x ++ sep :: y` with `sep ∉ x` peels off `x` as the first segment. -/
theorem splitSeg_append (sep : Char) (x y : Str) (h : sep ∉ x) :
    splitSeg sep (x ++ sep :: y) = x :: splitSeg sep y := by
  induction x with
  | nil => simpa using splitSeg_cons_sep sep y
  | cons c cs ih =>
    have hc : c ≠ sep := fun hh => h (hh ▸ List.mem_cons_self c cs)
    have hcs : sep ∉ cs := fun hh => h (List.mem_cons_of_mem c hh)
    rw [List.cons_append, splitSeg_cons_ne sep c _ hc, ih hcs]
    simp

/-- Join segments with dots (inverse of `splitDots` on dot-free segments). -/
def joinSegs : List Str → Str
  | [] => []
  | [s] => s
  | s :: ss => s ++ '.' :: joinSegs ss

theorem joinSegs_cons_cons (s a : Str) (ss : List Str) :
    joinSegs (s :: a :: ss) = s ++ '.' :: joinSegs (a :: ss) := rfl

theorem joinSegs_append (x y : List Str) (hx : x ≠ []) (hy : y ≠ []) :
    joinSegs (x ++ y) = joinSegs x ++ '.' :: joinSegs y := by
  induction x with
  | nil => exact absurd rfl hx
  | cons s ss ih =>
    cases ss with
    | nil => cases y with
      | nil => exact absurd rfl hy
      | cons b bs => simp [joinSegs_cons_cons, joinSegs]
    | cons a as =>
      have h1 : (s :: a :: as) ++ y = s :: a :: (as ++ y) := by simp
      have h2 : a :: (as ++ y) = (a :: as) ++ y := by simp
      rw [h1, joinSegs_cons_cons, h2, ih (by simp), joinSegs_cons_cons]
      simp

/-- `fullPath ? fullPath + '.' + part : part` — the accumulator step of
`TagSystem.addTag`/`removeTag` (the empty string is falsy in JS). -/
def joinStep (fp s : Str) : Str := if fp = [] then s else fp ++ '.' :: s

/-- The sequence of `fullPath` values computed by the `addTag`/`removeTag`
loops, starting from accumulator `fp` (one entry per consumed segment). -/
def accPathsFrom (fp : Str) : List Str → List Str
  | [] => []
  | p :: rest => joinStep fp p :: accPathsFrom (joinStep fp p) rest

/-- `fullPath` values starting from the empty accumulator (loop entry). -/
def accPaths (parts : List Str) : List Str := accPathsFrom [] parts

/-- All non-empty prefixes of a segment list (node paths touched by a walk). -/
def segPrefixes : List Str → List (List Str)
  | [] => []
  | p :: rest => [p] :: (segPrefixes rest).map (p :: ·)

theorem mem_segPrefixes {parts σ : List Str} :
    σ ∈ segPrefixes parts ↔ ∃ i, 0 < i ∧ i ≤ parts.length ∧ σ = parts.take i := by
  induction parts generalizing σ with
  | nil =>
    simp only [segPrefixes, List.length_nil, List.not_mem_nil, false_iff]
    rintro ⟨i, hi0, hil, -⟩
    omega
  | cons p rest ih =>
    simp only [segPrefixes, List.mem_cons, List.mem_map, ih]
    constructor
    · rintro (h | ⟨σ', ⟨i, hi0, hil, hσ'⟩, rfl⟩)
      · exact ⟨1, by omega, by simp, by simpa using h⟩
      · exact ⟨i + 1, by omega, by simpa using hil, by simp [hσ']⟩
    · rintro ⟨i, hi0, hil, rfl⟩
      cases i with
      | zero => omega
      | succ j =>
        cases j with
        | zero => left; simp
        | succ k =>
          right
          exact ⟨rest.take (k + 1), ⟨k + 1, by omega, by simpa using hil, rfl⟩,
            by simp⟩

theorem segPrefixes_ne_nil_mem {parts : List Str} (σ : List Str)
    (h : σ ∈ segPrefixes parts) : σ ≠ [] := by
  rcases mem_segPrefixes.1 h with ⟨i, hi0, _, rfl⟩
  cases parts with
  | nil => simp at *; omega
  | cons p rest => cases i with
    | zero => omega
    | succ j => simp

theorem self_mem_segPrefixes {parts : List Str} (h : parts ≠ []) :
    parts ∈ segPrefixes parts :=
  mem_segPrefixes.2 ⟨parts.length, by
    cases parts with
    | nil => exact absurd rfl h
    | cons p r => simp, le_refl _, by simp⟩

/-! ## TagSystem (`src/core/TagSystem.ts`)

A `TagNode` carries a segment `name`, the `fullPath` from the root, a
`children` map (JS `Map<string, TagNode>`, modelled as an association list
with `Map.set` semantics) and an `owningDocuments` set `filePaths`. -/

inductive TagNode : Type where
  | mk (name : Str) (fullPath : Str) (children : List (Str × TagNode))
       (filePaths : Finset Str)

namespace TagNode

def name : TagNode → Str
  | mk n _ _ _ => n

def fullPath : TagNode → Str
  | mk _ fp _ _ => fp

def children : TagNode → List (Str × TagNode)
  | mk _ _ c _ => c

def filePaths : TagNode → Finset Str
  | mk _ _ _ f => f

@[simp] theorem children_mk (n fp : Str) (c : List (Str × TagNode))
    (f : Finset Str) : (TagNode.mk n fp c f).children = c := rfl

@[simp] theorem filePaths_mk (n fp : Str) (c : List (Str × TagNode))
    (f : Finset Str) : (TagNode.mk n fp c f).filePaths = f := rfl

@[simp] theorem name_mk (n fp : Str) (c : List (Str × TagNode))
    (f : Finset Str) : (TagNode.mk n fp c f).name = n := rfl

@[simp] theorem fullPath_mk (n fp : Str) (c : List (Str × TagNode))
    (f : Finset Str) : (TagNode.mk n fp c f).fullPath = fp := rfl

theorem sizeOf_children_lt (n : TagNode) : sizeOf n.children < sizeOf n := by
  cases n with
  | mk a b c d => simp only [children_mk, TagNode.mk.sizeOf_spec]; omega

end TagNode

/-- `createNode` of `TagSystem.ts`. -/
def createNode (name fullPath : Str) : TagNode := .mk name fullPath [] ∅

instance : Inhabited TagNode := ⟨createNode [] []⟩

/-- `Map.get` on the children map: first entry with the given key. -/
def lookupChild (k : Str) : List (Str × TagNode) → Option TagNode
  | [] => none
  | (k', c) :: rest => if k' = k then some c else lookupChild k rest

/-- `Map.set` on the children map: update the first entry in place, append
when the key is absent (JS `Map` keeps insertion order). -/
def setChild (k : Str) (v : TagNode) : List (Str × TagNode) → List (Str × TagNode)
  | [] => [(k, v)]
  | (k', c) :: rest => if k' = k then (k, v) :: rest else (k', c) :: setChild k v rest

theorem sizeOf_lookupChild {k : Str} {l : List (Str × TagNode)} {c : TagNode}
    (h : lookupChild k l = some c) : sizeOf c < sizeOf l := by
  induction l with
  | nil => simp [lookupChild] at h
  | cons hd tl ih =>
    obtain ⟨k', c'⟩ := hd
    simp only [lookupChild] at h
    split at h
    · cases h
      simp only [List.cons.sizeOf_spec, Prod.mk.sizeOf_spec]
      omega
    · have := ih h
      simp only [List.cons.sizeOf_spec]
      omega

@[simp] theorem lookupChild_setChild_self (k : Str) (v : TagNode)
    (l : List (Str × TagNode)) : lookupChild k (setChild k v l) = some v := by
  induction l with
  | nil => simp [setChild, lookupChild]
  | cons hd tl ih =>
    obtain ⟨k', c'⟩ := hd
    by_cases h : k' = k
    · simp [setChild, lookupChild, h]
    · simp [setChild, lookupChild, h, ih]

theorem lookupChild_setChild_ne (k k' : Str) (v : TagNode)
    (l : List (Str × TagNode)) (h : k' ≠ k) :
    lookupChild k' (setChild k v l) = lookupChild k' l := by
  have hne : k ≠ k' := fun he => h he.symm
  induction l with
  | nil =>
    simp only [setChild, lookupChild, if_neg hne]
  | cons hd tl ih =>
    obtain ⟨k'', c''⟩ := hd
    simp only [setChild]
    by_cases hk : k'' = k
    · subst hk
      simp only [if_pos rfl, lookupChild, if_neg hne]
    · rw [if_neg hk]
      simp only [lookupChild, ih]

/-- `Map.set` with the value already stored is a no-op. -/
theorem setChild_lookup_eq (k : Str) (c : TagNode) (l : List (Str × TagNode))
    (h : lookupChild k l = some c) : setChild k c l = l := by
  induction l with
  | nil => simp [lookupChild] at h
  | cons hd tl ih =>
    obtain ⟨k', c'⟩ := hd
    simp only [lookupChild] at h
    by_cases hk : k' = k
    · rw [if_pos hk] at h
      cases h
      subst hk
      simp [setChild]
    · rw [if_neg hk] at h
      simp [setChild, hk, ih h]

/-! ### The flat `tagToFilesMap` (`Map<string, Set<string>>`) -/

abbrev FlatMap := List (Str × Finset Str)

/-- `if (!map.has(k)) map.set(k, new Set()); map.get(k)!.add(f)` — the flat
index update in `addTag`. -/
def flatAdd (k f : Str) : FlatMap → FlatMap
  | [] => [(k, {f})]
  | (k', s) :: rest =>
    if k' = k then (k, insert f s) :: rest else (k', s) :: flatAdd k f rest

/-- `const s = map.get(k); if (s) { s.delete(f); if (s.size === 0) map.delete(k) }`
— the flat index update in `removeTag`. -/
def flatRemove (k f : Str) : FlatMap → FlatMap
  | [] => []
  | (k', s) :: rest =>
    if k' = k then
      (if s.erase f = ∅ then rest else (k, s.erase f) :: rest)
    else (k', s) :: flatRemove k f rest

def flatLookup (k : Str) : FlatMap → Option (Finset Str)
  | [] => none
  | (k', s) :: rest => if k' = k then some s else flatLookup k rest

@[simp] theorem flatLookup_flatAdd_self (k f : Str) (m : FlatMap) :
    flatLookup k (flatAdd k f m) = some (insert f ((flatLookup k m).getD ∅)) := by
  induction m with
  | nil => simp [flatAdd, flatLookup]
  | cons hd tl ih =>
    obtain ⟨k', s⟩ := hd
    by_cases h : k' = k
    · simp [flatAdd, flatLookup, h]
    · simp [flatAdd, flatLookup, h, ih]

theorem flatLookup_flatAdd_ne (k k' f : Str) (m : FlatMap) (h : k' ≠ k) :
    flatLookup k' (flatAdd k f m) = flatLookup k' m := by
  have hne : k ≠ k' := fun he => h he.symm
  induction m with
  | nil => simp [flatAdd, flatLookup, if_neg hne]
  | cons hd tl ih =>
    obtain ⟨k'', s⟩ := hd
    simp only [flatAdd]
    by_cases hk : k'' = k
    · subst hk
      simp only [if_pos rfl, flatLookup, if_neg hne]
    · rw [if_neg hk]
      simp only [flatLookup, ih]

theorem flatLookup_eq_none_of_not_mem (k : Str) (m : FlatMap)
    (h : k ∉ m.map Prod.fst) : flatLookup k m = none := by
  induction m with
  | nil => rfl
  | cons hd tl ih =>
    obtain ⟨k', s⟩ := hd
    simp only [List.map_cons, List.mem_cons, not_or] at h
    have : k' ≠ k := fun he => h.1 he.symm
    simp only [flatLookup, if_neg this, ih h.2]

/-- Keys of a JS `Map` are unique; the association-list model of a reachable
flat index satisfies this invariant. -/
def FlatKeysNodup (m : FlatMap) : Prop := (m.map Prod.fst).Nodup

theorem flatLookup_flatRemove_none (k f : Str) (m : FlatMap)
    (h : flatLookup k m = none) :
    flatLookup k (flatRemove k f m) = none := by
  induction m with
  | nil => rfl
  | cons hd tl ih =>
    obtain ⟨k', s⟩ := hd
    simp only [flatLookup] at h
    by_cases hk : k' = k
    · rw [if_pos hk] at h; cases h
    · rw [if_neg hk] at h
      simp only [flatRemove, if_neg hk, flatLookup, if_neg hk, ih h]

theorem flatLookup_flatRemove_some (k f : Str) (m : FlatMap) (s : Finset Str)
    (hnd : FlatKeysNodup m) (h : flatLookup k m = some s) :
    flatLookup k (flatRemove k f m) =
      (if s.erase f = ∅ then none else some (s.erase f)) := by
  induction m with
  | nil => cases h
  | cons hd tl ih =>
    obtain ⟨k', t⟩ := hd
    simp only [FlatKeysNodup, List.map_cons, List.nodup_cons] at hnd
    simp only [flatLookup] at h
    by_cases hk : k' = k
    · rw [if_pos hk] at h
      injection h with h2
      subst h2
      simp only [flatRemove, if_pos hk]
      by_cases he : t.erase f = ∅
      · rw [if_pos he, if_pos he]
        exact flatLookup_eq_none_of_not_mem k tl (hk ▸ hnd.1)
      · rw [if_neg he, if_neg he]
        simp [flatLookup]
    · rw [if_neg hk] at h
      simp only [flatRemove, if_neg hk, flatLookup, if_neg hk]
      exact ih hnd.2 h

theorem flatLookup_flatRemove_ne (k k' f : Str) (m : FlatMap) (h : k' ≠ k) :
    flatLookup k' (flatRemove k f m) = flatLookup k' m := by
  induction m with
  | nil => rfl
  | cons hd tl ih =>
    obtain ⟨k'', s⟩ := hd
    simp only [flatRemove]
    by_cases hk : k'' = k
    · rw [if_pos hk]
      have hne : k'' ≠ k' := fun he => h (he.symm.trans hk)
      have hne2 : k ≠ k' := fun he => h he.symm
      by_cases hse : s.erase f = ∅
      · rw [if_pos hse]
        simp only [flatLookup, if_neg hne]
      · rw [if_neg hse]
        simp only [flatLookup, if_neg hne, if_neg hne2]
    · rw [if_neg hk]
      simp only [flatLookup, ih]

/-! ### TagSystem state and operations -/

structure TagSystem where
  root : TagNode
  tagToFilesMap : FlatMap

/-- `new TagSystem()` / `clear()`: empty root node, empty flat map. -/
def TagSystem.empty : TagSystem := ⟨createNode [] [], []⟩

/-- The walk of `TagSystem.addTag`: for each part, create the child if
missing, descend, add `filePath` to the node, and update the flat map at the
accumulated `fullPath`.  Returns the rebuilt subtree and new flat map. -/
def addTagAux (f : Str) : List Str → Str → TagNode → FlatMap → TagNode × FlatMap
  | [], _, n, m => (n, m)
  | p :: rest, fp, n, m =>
    let fp' := joinStep fp p
    let c0 := (lookupChild p n.children).getD (createNode p fp')
    let c1 := TagNode.mk c0.name c0.fullPath c0.children (insert f c0.filePaths)
    let m1 := flatAdd fp' f m
    let r := addTagAux f rest fp' c1 m1
    (TagNode.mk n.name n.fullPath (setChild p r.1 n.children) n.filePaths, r.2)

/-- `TagSystem.addTag(filePath, tag)`. -/
def addTag (f t : Str) (ts : TagSystem) : TagSystem :=
  let r := addTagAux f (splitDots t) [] ts.root ts.tagToFilesMap
  ⟨r.1, r.2⟩

/-- `TagSystem.addTags(filePath, tags)`. -/
def addTags (f : Str) (tags : List Str) (ts : TagSystem) : TagSystem :=
  tags.foldl (fun ts t => addTag f t ts) ts

/-- The walk of `TagSystem.removeTag`.  Navigates the parts; if some child is
missing it returns early (`ok = false`) leaving the trie untouched but with
the flat-map deletions performed so far; if navigation completes
(`ok = true`), `filePath` is removed from every node along the path. -/
def removeTagAux (f : Str) :
    List Str → Str → TagNode → FlatMap → TagNode × FlatMap × Bool
  | [], _, n, m => (n, m, true)
  | p :: rest, fp, n, m =>
    let fp' := joinStep fp p
    match lookupChild p n.children with
    | none => (n, m, false)
    | some c =>
      let m1 := flatRemove fp' f m
      let r := removeTagAux f rest fp' c m1
      let c2 := if r.2.2 then
          TagNode.mk r.1.name r.1.fullPath r.1.children (r.1.filePaths.erase f)
        else r.1
      (TagNode.mk n.name n.fullPath (setChild p c2 n.children) n.filePaths,
       r.2.1, r.2.2)

/-- `TagSystem.removeTag(filePath, tag)`. -/
def removeTag (f t : Str) (ts : TagSystem) : TagSystem :=
  let r := removeTagAux f (splitDots t) [] ts.root ts.tagToFilesMap
  ⟨r.1, r.2.1⟩

/-- `TagSystem.removeTags(filePath, tags)`. -/
def removeTags (f : Str) (tags : List Str) (ts : TagSystem) : TagSystem :=
  tags.foldl (fun ts t => removeTag f t ts) ts

/-- `TagSystem.queryByTag(tag)`: flat-map lookup (the JS code returns
`Array.from(set)`; the observable document set is modelled directly). -/
def queryByTag (ts : TagSystem) (t : Str) : Finset Str :=
  (flatLookup t ts.tagToFilesMap).getD ∅

/-- `TagSystem.getAllTags()`: the keys of the flat map, in insertion order. -/
def getAllTags (ts : TagSystem) : List Str :=
  ts.tagToFilesMap.map Prod.fst

/-- `TagSystem.getTagsForFile(filePath)`: keys whose set contains the file. -/
def getTagsForFile (ts : TagSystem) (f : Str) : List Str :=
  (ts.tagToFilesMap.filter (fun kv => f ∈ kv.2)).map Prod.fst

/-- `TagSystem.size()`. -/
def TagSystem.size (ts : TagSystem) : Nat := ts.tagToFilesMap.length

/-! ### Navigation helpers used by the specification -/

/-- Follow a segment path from a node (not part of the JS source; used to
state where a document is stored). -/
def findNode : TagNode → List Str → Option TagNode
  | n, [] => some n
  | n, s :: σ =>
    match lookupChild s n.children with
    | some c => findNode c σ
    | none => none

/-- `owningDocuments` of the node at path `σ` (empty when absent). -/
def filesAt (n : TagNode) (σ : List Str) : Finset Str :=
  ((findNode n σ).map TagNode.filePaths).getD ∅

@[simp] theorem findNode_nil (n : TagNode) : findNode n [] = some n := rfl

@[simp] theorem filesAt_nil (n : TagNode) : filesAt n [] = n.filePaths := rfl

theorem filesAt_cons (n : TagNode) (s : Str) (σ : List Str) :
    filesAt n (s :: σ) =
      match lookupChild s n.children with
      | some c => filesAt c σ
      | none => ∅ := by
  cases h : lookupChild s n.children <;> simp [filesAt, findNode, h]

theorem filesAt_createNode (name fp : Str) (σ : List Str) :
    filesAt (createNode name fp) σ = ∅ := by
  cases σ with
  | nil => simp [createNode]
  | cons s σ' => simp [filesAt_cons, createNode, lookupChild]

/-! ### Effect of `addTag` on the trie and the flat map -/

theorem nil_not_mem_segPrefixes (parts : List Str) :
    [] ∉ segPrefixes parts := fun h => segPrefixes_ne_nil_mem [] h rfl

theorem cons_mem_segPrefixes_cons (p : Str) (rest : List Str) (σ : List Str) :
    p :: σ ∈ segPrefixes (p :: rest) ↔ σ = [] ∨ σ ∈ segPrefixes rest := by
  constructor
  · intro h
    rcases mem_segPrefixes.1 h with ⟨i, hi0, hil, he⟩
    cases i with
    | zero => omega
    | succ j =>
      rw [List.take_succ_cons] at he
      injection he with h1 h2
      cases j with
      | zero => left; simpa using h2
      | succ k =>
        right
        refine mem_segPrefixes.2 ⟨k + 1, by omega, by simpa using hil, h2⟩
  · rintro (rfl | h)
    · exact mem_segPrefixes.2 ⟨1, one_pos, by simp, by simp⟩
    · rcases mem_segPrefixes.1 h with ⟨i, hi0, hil, rfl⟩
      refine mem_segPrefixes.2 ⟨i + 1, by omega, by simpa using hil, ?_⟩
      rw [List.take_succ_cons]

theorem ne_head_not_mem_segPrefixes (s p : Str) (rest : List Str)
    (σ : List Str) (h : s ≠ p) : s :: σ ∉ segPrefixes (p :: rest) := by
  intro hmem
  rcases mem_segPrefixes.1 hmem with ⟨i, hi0, hil, he⟩
  cases i with
  | zero => omega
  | succ j =>
    rw [List.take_succ_cons] at he
    injection he with h1 h2
    exact h h1

/-- The node the `addTag` walk descends into behaves, for lookups below it,
exactly like the corresponding position under `n`. -/
theorem filesAt_getD_child (p fp' : Str) (n : TagNode) (τ : List Str) :
    filesAt ((lookupChild p n.children).getD (createNode p fp')) τ =
      filesAt n (p :: τ) := by
  cases h : lookupChild p n.children with
  | some c => simp [filesAt_cons, h]
  | none => simp [filesAt_cons, h, filesAt_createNode]

theorem filesAt_addTagAux (f : Str) (parts : List Str) (fp : Str)
    (n : TagNode) (m : FlatMap) (σ : List Str) :
    filesAt (addTagAux f parts fp n m).1 σ =
      if σ ∈ segPrefixes parts then insert f (filesAt n σ)
      else filesAt n σ := by
  induction parts generalizing fp n m σ with
  | nil => simp [addTagAux, segPrefixes]
  | cons p rest ih =>
    simp only [addTagAux]
    cases σ with
    | nil =>
      rw [if_neg (nil_not_mem_segPrefixes _)]
      simp
    | cons s σ' =>
      by_cases hs : s = p
      · subst hs
        rw [filesAt_cons]
        simp only [TagNode.children_mk, lookupChild_setChild_self]
        rw [ih]
        set c0 := (lookupChild s n.children).getD (createNode s (joinStep fp s))
          with hc0
        have hbelow : ∀ τ : List Str,
            filesAt (TagNode.mk c0.name c0.fullPath c0.children
              (insert f c0.filePaths)) τ =
              (if τ = [] then insert f (filesAt n (s :: τ))
               else filesAt n (s :: τ)) := by
          intro τ
          cases τ with
          | nil =>
            simp only [filesAt_nil, TagNode.filePaths_mk, if_pos rfl]
            rw [← filesAt_getD_child s (joinStep fp s) n []]
            rfl
          | cons a τ' =>
            simp only [if_neg (List.cons_ne_nil a τ')]
            rw [← filesAt_getD_child s (joinStep fp s) n (a :: τ')]
            rw [filesAt_cons, filesAt_cons]
            rfl
        by_cases hmem : σ' ∈ segPrefixes rest
        · rw [if_pos hmem,
            if_pos ((cons_mem_segPrefixes_cons s rest σ').2 (Or.inr hmem)),
            hbelow, if_neg (segPrefixes_ne_nil_mem σ' hmem)]
        · rw [if_neg hmem, hbelow]
          cases Decidable.em (σ' = []) with
          | inl he =>
            subst he
            rw [if_pos rfl,
              if_pos ((cons_mem_segPrefixes_cons s rest []).2 (Or.inl rfl))]
          | inr he =>
            rw [if_neg he, if_neg (fun hc => by
              rcases (cons_mem_segPrefixes_cons s rest σ').1 hc with h | h
              exacts [he h, hmem h])]
      · rw [filesAt_cons]
        simp only [TagNode.children_mk,
          lookupChild_setChild_ne p s _ _ hs]
        rw [if_neg (ne_head_not_mem_segPrefixes s p rest σ' hs),
          filesAt_cons]

/-- Applying `flatAdd` successively for each key of a list. -/
def flatAddSeq (f : Str) (ks : List Str) (m : FlatMap) : FlatMap :=
  ks.foldl (fun m k => flatAdd k f m) m

/-- Applying `flatRemove` successively for each key of a list. -/
def flatRemoveSeq (f : Str) (ks : List Str) (m : FlatMap) : FlatMap :=
  ks.foldl (fun m k => flatRemove k f m) m

/-- The flat-map component of `addTag` is the sequence of `flatAdd`s at the
accumulated full paths (it does not depend on the trie). -/
theorem addTagAux_flat (f : Str) (parts : List Str) (fp : Str) (n : TagNode)
    (m : FlatMap) :
    (addTagAux f parts fp n m).2 = flatAddSeq f (accPathsFrom fp parts) m := by
  induction parts generalizing fp n m with
  | nil => rfl
  | cons p rest ih =>
    simp only [addTagAux, accPathsFrom, flatAddSeq, List.foldl_cons]
    exact ih _ _ _

theorem flatLookup_flatAddSeq (f k : Str) (ks : List Str) (m : FlatMap) :
    flatLookup k (flatAddSeq f ks m) =
      if k ∈ ks then some (insert f ((flatLookup k m).getD ∅))
      else flatLookup k m := by
  induction ks generalizing m with
  | nil => simp [flatAddSeq]
  | cons k' ks' ih =>
    simp only [flatAddSeq, List.foldl_cons]
    rw [show (List.foldl (fun m k => flatAdd k f m) (flatAdd k' f m) ks') =
      flatAddSeq f ks' (flatAdd k' f m) from rfl, ih]
    by_cases hk : k = k'
    · subst hk
      by_cases hmem : k ∈ ks'
      · rw [if_pos hmem, if_pos (List.mem_cons_self k ks')]
        rw [flatLookup_flatAdd_self]
        simp [Finset.insert_idem]
      · rw [if_neg hmem, if_pos (List.mem_cons_self k ks')]
        rw [flatLookup_flatAdd_self]
    · rw [flatLookup_flatAdd_ne k' k f m hk]
      by_cases hmem : k ∈ ks'
      · rw [if_pos hmem, if_pos (List.mem_cons_of_mem k' hmem)]
      · rw [if_neg hmem, if_neg (by
          intro hc
          rcases List.mem_cons.1 hc with h | h
          exacts [hk h, hmem h])]

/-- A node path is present in the trie. -/
def nodeExists (n : TagNode) (σ : List Str) : Prop := (findNode n σ).isSome

@[simp] theorem nodeExists_nil (n : TagNode) : nodeExists n [] := by
  simp [nodeExists]

theorem nodeExists_cons (n : TagNode) (s : Str) (σ : List Str) :
    nodeExists n (s :: σ) ↔
      ∃ c, lookupChild s n.children = some c ∧ nodeExists c σ := by
  cases h : lookupChild s n.children with
  | some c => simp [nodeExists, findNode, h]
  | none => simp [nodeExists, findNode, h]

theorem nodeExists_getD_child (p fp' : Str) (n : TagNode) (τ : List Str) :
    nodeExists ((lookupChild p n.children).getD (createNode p fp')) τ ↔
      nodeExists n (p :: τ) ∨ τ = [] := by
  cases h : lookupChild p n.children with
  | some c =>
    simp only [Option.getD_some]
    cases τ with
    | nil => simp [nodeExists_cons, h]
    | cons a τ' =>
      simp only [List.cons_ne_nil, or_false, nodeExists_cons n p, h]
      constructor
      · intro hc; exact ⟨c, rfl, hc⟩
      · rintro ⟨c', hc', hex⟩; cases hc'; exact hex
  | none =>
    simp only [Option.getD_none]
    cases τ with
    | nil => simp
    | cons a τ' =>
      simp only [List.cons_ne_nil, or_false, nodeExists_cons n p, h]
      constructor
      · intro hc
        rcases (nodeExists_cons _ a τ').1 hc with ⟨c', hc', -⟩
        simp [createNode, lookupChild] at hc'
      · rintro ⟨c', hc', -⟩; cases hc'

theorem nodeExists_mk_children (a b : Str) (c : TagNode) (d : Finset Str)
    (σ : List Str) :
    nodeExists (TagNode.mk a b c.children d) σ ↔ nodeExists c σ := by
  cases σ with
  | nil => simp
  | cons s σ' => simp [nodeExists_cons]

theorem nodeExists_addTagAux (f : Str) (parts : List Str) (fp : Str)
    (n : TagNode) (m : FlatMap) (σ : List Str) :
    nodeExists (addTagAux f parts fp n m).1 σ ↔
      σ ∈ segPrefixes parts ∨ nodeExists n σ := by
  induction parts generalizing fp n m σ with
  | nil => simp [addTagAux, segPrefixes]
  | cons p rest ih =>
    simp only [addTagAux]
    cases σ with
    | nil => simp
    | cons s σ' =>
      by_cases hs : s = p
      · subst hs
        rw [nodeExists_cons]
        simp only [TagNode.children_mk, lookupChild_setChild_self]
        constructor
        · rintro ⟨c, hc, hex⟩
          cases hc
          rcases (ih _ _ _ _).1 hex with h | h
          · exact Or.inl ((cons_mem_segPrefixes_cons s rest σ').2 (Or.inr h))
          · rcases (nodeExists_mk_children _ _ _ _ σ').1 h |>
              (nodeExists_getD_child s (joinStep fp s) n σ').1 with h2
            rcases h2 with h2 | h2
            · exact Or.inr h2
            · exact Or.inl
                ((cons_mem_segPrefixes_cons s rest σ').2 (Or.inl h2))
        · intro h
          refine ⟨_, rfl, ?_⟩
          rw [ih]
          rcases h with h | h
          · rcases (cons_mem_segPrefixes_cons s rest σ').1 h with h2 | h2
            · right
              rw [nodeExists_mk_children, nodeExists_getD_child]
              exact Or.inr h2
            · exact Or.inl h2
          · right
            rw [nodeExists_mk_children, nodeExists_getD_child]
            exact Or.inl h
      · rw [nodeExists_cons, nodeExists_cons]
        simp only [TagNode.children_mk,
          lookupChild_setChild_ne p s _ _ hs]
        constructor
        · rintro ⟨c, hc, hex⟩
          exact Or.inr ⟨c, hc, hex⟩
        · rintro (h | ⟨c, hc, hex⟩)
          · exact absurd h (ne_head_not_mem_segPrefixes s p rest σ' hs)
          · exact ⟨c, hc, hex⟩

/-! ### Effect of `removeTag` -/

theorem TagNode.eta (n : TagNode) :
    TagNode.mk n.name n.fullPath n.children n.filePaths = n := by
  cases n; rfl

/-- Navigation success of the `removeTag` walk. -/
theorem removeTagAux_ok (f : Str) (parts : List Str) (fp : Str) (n : TagNode)
    (m : FlatMap) :
    (removeTagAux f parts fp n m).2.2 = true ↔ nodeExists n parts := by
  induction parts generalizing fp n m with
  | nil => simp [removeTagAux]
  | cons p rest ih =>
    simp only [removeTagAux]
    cases h : lookupChild p n.children with
    | none =>
      simp only [nodeExists_cons]
      constructor
      · intro hc; cases hc
      · rintro ⟨c, hc, -⟩; rw [h] at hc; cases hc
    | some c =>
      simp only
      rw [ih, nodeExists_cons]
      constructor
      · intro hc; exact ⟨c, h, hc⟩
      · rintro ⟨c', hc', hex⟩; rw [h] at hc'; cases hc'; exact hex

/-- When navigation fails, `removeTag` leaves the trie untouched. -/
theorem removeTagAux_node_of_not_ok (f : Str) (parts : List Str) (fp : Str)
    (n : TagNode) (m : FlatMap)
    (h : (removeTagAux f parts fp n m).2.2 = false) :
    (removeTagAux f parts fp n m).1 = n := by
  induction parts generalizing fp n m with
  | nil => simp [removeTagAux] at h
  | cons p rest ih =>
    simp only [removeTagAux] at h ⊢
    cases hc : lookupChild p n.children with
    | none => rfl
    | some c =>
      rw [hc] at h
      simp only at h ⊢
      rw [if_neg (by rw [h]; exact Bool.false_ne_true)]
      rw [ih _ _ _ h, setChild_lookup_eq p c n.children hc, TagNode.eta]

/-- Nodes are never deleted: existence of any path is preserved. -/
theorem nodeExists_removeTagAux (f : Str) (parts : List Str) (fp : Str)
    (n : TagNode) (m : FlatMap) (σ : List Str) :
    nodeExists (removeTagAux f parts fp n m).1 σ ↔ nodeExists n σ := by
  induction parts generalizing fp n m σ with
  | nil => simp [removeTagAux]
  | cons p rest ih =>
    simp only [removeTagAux]
    cases hc : lookupChild p n.children with
    | none => simp
    | some c =>
      simp only
      cases σ with
      | nil => simp
      | cons s σ' =>
        by_cases hs : s = p
        · subst hs
          rw [nodeExists_cons, nodeExists_cons]
          simp only [TagNode.children_mk, lookupChild_setChild_self, hc]
          constructor
          · rintro ⟨c2, hc2, hex⟩
            cases hc2
            refine ⟨c, rfl, ?_⟩
            by_cases hok : (removeTagAux f rest (joinStep fp s) c
                (flatRemove (joinStep fp s) f m)).2.2 = true
            · rw [if_pos hok, nodeExists_mk_children, ih] at hex
              exact hex
            · rw [if_neg hok,
                removeTagAux_node_of_not_ok f rest _ c _
                  (Bool.eq_false_iff.2 hok)] at hex
              exact hex
          · rintro ⟨c', hc', hex⟩
            cases hc'
            refine ⟨_, rfl, ?_⟩
            by_cases hok : (removeTagAux f rest (joinStep fp s) c
                (flatRemove (joinStep fp s) f m)).2.2 = true
            · rw [if_pos hok, nodeExists_mk_children, ih]
              exact hex
            · rw [if_neg hok,
                removeTagAux_node_of_not_ok f rest _ c _
                  (Bool.eq_false_iff.2 hok)]
              exact hex
        · rw [nodeExists_cons, nodeExists_cons]
          simp only [TagNode.children_mk,
            lookupChild_setChild_ne p s _ _ hs]

/-- The flat-map component of a successful `removeTag` walk is the sequence
of `flatRemove`s at the accumulated full paths. -/
theorem removeTagAux_flat (f : Str) (parts : List Str) (fp : Str)
    (n : TagNode) (m : FlatMap) (h : nodeExists n parts) :
    (removeTagAux f parts fp n m).2.1 =
      flatRemoveSeq f (accPathsFrom fp parts) m := by
  induction parts generalizing fp n m with
  | nil => rfl
  | cons p rest ih =>
    rcases (nodeExists_cons n p rest).1 h with ⟨c, hc, hex⟩
    simp only [removeTagAux, hc]
    simp only [accPathsFrom, flatRemoveSeq, List.foldl_cons]
    exact ih _ _ _ hex

/-- Effect of a successful `removeTag` walk on every node's document set. -/
theorem filesAt_removeTagAux (f : Str) (parts : List Str) (fp : Str)
    (n : TagNode) (m : FlatMap) (h : nodeExists n parts) (σ : List Str) :
    filesAt (removeTagAux f parts fp n m).1 σ =
      if σ ∈ segPrefixes parts then (filesAt n σ).erase f
      else filesAt n σ := by
  induction parts generalizing fp n m σ with
  | nil => simp [removeTagAux, segPrefixes]
  | cons p rest ih =>
    rcases (nodeExists_cons n p rest).1 h with ⟨c, hc, hex⟩
    simp only [removeTagAux, hc]
    have hok : (removeTagAux f rest (joinStep fp p) c
        (flatRemove (joinStep fp p) f m)).2.2 = true :=
      (removeTagAux_ok f rest _ c _).2 hex
    cases σ with
    | nil =>
      rw [if_neg (nil_not_mem_segPrefixes _)]
      simp
    | cons s σ' =>
      by_cases hs : s = p
      · subst hs
        rw [filesAt_cons]
        simp only [TagNode.children_mk, lookupChild_setChild_self, if_pos hok]
        have hchild : ∀ τ, filesAt c τ = filesAt n (s :: τ) := by
          intro τ; rw [filesAt_cons, hc]
        cases σ' with
        | nil =>
          simp only [filesAt_nil, TagNode.filePaths_mk]
          have h0 : filesAt (removeTagAux f rest (joinStep fp s) c
              (flatRemove (joinStep fp s) f m)).1 [] = filesAt c [] := by
            rw [ih _ _ _ hex, if_neg (nil_not_mem_segPrefixes _)]
          simp only [filesAt_nil] at h0
          have h1 := hchild []
          simp only [filesAt_nil] at h1
          rw [h0, h1,
            if_pos ((cons_mem_segPrefixes_cons s rest []).2 (Or.inl rfl))]
        | cons a σ'' =>
          have hchildren : filesAt (TagNode.mk
              (removeTagAux f rest (joinStep fp s) c
                (flatRemove (joinStep fp s) f m)).1.name
              (removeTagAux f rest (joinStep fp s) c
                (flatRemove (joinStep fp s) f m)).1.fullPath
              (removeTagAux f rest (joinStep fp s) c
                (flatRemove (joinStep fp s) f m)).1.children
              ((removeTagAux f rest (joinStep fp s) c
                (flatRemove (joinStep fp s) f m)).1.filePaths.erase f))
              (a :: σ'') =
              filesAt (removeTagAux f rest (joinStep fp s) c
                (flatRemove (joinStep fp s) f m)).1 (a :: σ'') := by
            rw [filesAt_cons, filesAt_cons]
            simp only [TagNode.children_mk]
          rw [hchildren, ih _ _ _ hex]
          by_cases hmem : (a :: σ'') ∈ segPrefixes rest
          · rw [if_pos hmem, hchild,
              if_pos ((cons_mem_segPrefixes_cons s rest (a :: σ'')).2
                (Or.inr hmem))]
          · rw [if_neg hmem, hchild, if_neg (fun hcon => by
              rcases (cons_mem_segPrefixes_cons s rest (a :: σ'')).1 hcon
                with h2 | h2
              · exact List.cons_ne_nil a σ'' h2
              · exact hmem h2)]
      · rw [filesAt_cons]
        simp only [TagNode.children_mk,
          lookupChild_setChild_ne p s _ _ hs]
        rw [if_neg (ne_head_not_mem_segPrefixes s p rest σ' hs),
          filesAt_cons]

/-! ### `addTag(s)`/`removeTag(s)` summarized at the `TagSystem` level -/

theorem filesAt_addTag (f t : Str) (ts : TagSystem) (σ : List Str) :
    filesAt (addTag f t ts).root σ =
      if σ ∈ segPrefixes (splitDots t) then insert f (filesAt ts.root σ)
      else filesAt ts.root σ :=
  filesAt_addTagAux f (splitDots t) [] ts.root ts.tagToFilesMap σ

theorem nodeExists_addTag (f t : Str) (ts : TagSystem) (σ : List Str) :
    nodeExists (addTag f t ts).root σ ↔
      σ ∈ segPrefixes (splitDots t) ∨ nodeExists ts.root σ :=
  nodeExists_addTagAux f (splitDots t) [] ts.root ts.tagToFilesMap σ

theorem flatLookup_addTag (f t k : Str) (ts : TagSystem) :
    flatLookup k (addTag f t ts).tagToFilesMap =
      if k ∈ accPaths (splitDots t)
      then some (insert f ((flatLookup k ts.tagToFilesMap).getD ∅))
      else flatLookup k ts.tagToFilesMap := by
  show flatLookup k (addTagAux f (splitDots t) [] ts.root ts.tagToFilesMap).2
    = _
  rw [addTagAux_flat, flatLookup_flatAddSeq]
  rfl

theorem filesAt_removeTag (f t : Str) (ts : TagSystem)
    (h : nodeExists ts.root (splitDots t)) (σ : List Str) :
    filesAt (removeTag f t ts).root σ =
      if σ ∈ segPrefixes (splitDots t) then (filesAt ts.root σ).erase f
      else filesAt ts.root σ :=
  filesAt_removeTagAux f (splitDots t) [] ts.root ts.tagToFilesMap h σ

theorem nodeExists_removeTag (f t : Str) (ts : TagSystem) (σ : List Str) :
    nodeExists (removeTag f t ts).root σ ↔ nodeExists ts.root σ :=
  nodeExists_removeTagAux f (splitDots t) [] ts.root ts.tagToFilesMap σ

/-- What `flatRemove` does to the value found at its own key. -/
def removeOutcome (f : Str) (o : Option (Finset Str)) : Option (Finset Str) :=
  match o with
  | none => none
  | some s => if s.erase f = ∅ then none else some (s.erase f)

theorem removeOutcome_idem (f : Str) (o : Option (Finset Str)) :
    removeOutcome f (removeOutcome f o) = removeOutcome f o := by
  cases o with
  | none => rfl
  | some s =>
    simp only [removeOutcome]
    by_cases he : s.erase f = ∅
    · rw [if_pos he]
    · rw [if_neg he]
      simp only [removeOutcome, Finset.erase_idem]
      rw [if_neg he]

theorem mem_keys_flatAdd (k f k' : Str) (m : FlatMap) :
    k' ∈ (flatAdd k f m).map Prod.fst ↔ k' = k ∨ k' ∈ m.map Prod.fst := by
  induction m with
  | nil => simp [flatAdd]
  | cons hd tl ih =>
    obtain ⟨k'', s⟩ := hd
    by_cases hk : k'' = k
    · subst hk
      simp [flatAdd, or_comm, or_left_comm]
    · simp only [flatAdd, if_neg hk, List.map_cons, List.mem_cons, ih]
      tauto

theorem mem_keys_flatRemove (k f k' : Str) (m : FlatMap)
    (h : k' ∈ (flatRemove k f m).map Prod.fst) : k' ∈ m.map Prod.fst := by
  induction m with
  | nil => exact h
  | cons hd tl ih =>
    obtain ⟨k'', s⟩ := hd
    by_cases hk : k'' = k
    · rw [flatRemove, if_pos hk] at h
      by_cases he : s.erase f = ∅
      · rw [if_pos he] at h
        exact List.mem_cons_of_mem _ h
      · rw [if_neg he] at h
        simp only [List.map_cons, List.mem_cons] at h ⊢
        rcases h with h | h
        · exact Or.inl (h.trans hk.symm)
        · exact Or.inr h
    · rw [flatRemove, if_neg hk] at h
      simp only [List.map_cons, List.mem_cons] at h ⊢
      rcases h with h | h
      · exact Or.inl h
      · exact Or.inr (ih h)

theorem flatKeysNodup_flatAdd (k f : Str) (m : FlatMap)
    (h : FlatKeysNodup m) : FlatKeysNodup (flatAdd k f m) := by
  induction m with
  | nil => simp [flatAdd, FlatKeysNodup]
  | cons hd tl ih =>
    obtain ⟨k'', s⟩ := hd
    simp only [FlatKeysNodup, List.map_cons, List.nodup_cons] at h
    by_cases hk : k'' = k
    · subst hk
      simpa [flatAdd, FlatKeysNodup] using h
    · simp only [flatAdd, if_neg hk, FlatKeysNodup, List.map_cons,
        List.nodup_cons]
      refine ⟨fun hc => ?_, ih h.2⟩
      rcases (mem_keys_flatAdd k f k'' tl).1 hc with h2 | h2
      exacts [hk h2, h.1 h2]

theorem flatKeysNodup_flatRemove (k f : Str) (m : FlatMap)
    (h : FlatKeysNodup m) : FlatKeysNodup (flatRemove k f m) := by
  induction m with
  | nil => exact h
  | cons hd tl ih =>
    obtain ⟨k'', s⟩ := hd
    simp only [FlatKeysNodup, List.map_cons, List.nodup_cons] at h
    by_cases hk : k'' = k
    · rw [flatRemove, if_pos hk]
      by_cases he : s.erase f = ∅
      · rw [if_pos he]; exact h.2
      · rw [if_neg he]
        simp only [FlatKeysNodup, List.map_cons, List.nodup_cons]
        exact ⟨fun hc => h.1 (hk ▸ hc), h.2⟩
    · rw [flatRemove, if_neg hk]
      simp only [FlatKeysNodup, List.map_cons, List.nodup_cons]
      exact ⟨fun hc => h.1 (mem_keys_flatRemove k f k'' tl hc), ih h.2⟩

theorem flatLookup_flatRemove_self_outcome (k f : Str) (m : FlatMap)
    (hnd : FlatKeysNodup m) :
    flatLookup k (flatRemove k f m) = removeOutcome f (flatLookup k m) := by
  cases h : flatLookup k m with
  | none => simpa [removeOutcome] using flatLookup_flatRemove_none k f m h
  | some s => simpa [removeOutcome] using
      flatLookup_flatRemove_some k f m s hnd h

theorem flatKeysNodup_flatAddSeq (f : Str) (ks : List Str) (m : FlatMap)
    (h : FlatKeysNodup m) : FlatKeysNodup (flatAddSeq f ks m) := by
  induction ks generalizing m with
  | nil => exact h
  | cons k ks' ih => exact ih _ (flatKeysNodup_flatAdd k f m h)

theorem flatKeysNodup_flatRemoveSeq (f : Str) (ks : List Str) (m : FlatMap)
    (h : FlatKeysNodup m) : FlatKeysNodup (flatRemoveSeq f ks m) := by
  induction ks generalizing m with
  | nil => exact h
  | cons k ks' ih => exact ih _ (flatKeysNodup_flatRemove k f m h)

theorem flatLookup_flatRemoveSeq (f k : Str) (ks : List Str) (m : FlatMap)
    (hnd : FlatKeysNodup m) :
    flatLookup k (flatRemoveSeq f ks m) =
      if k ∈ ks then removeOutcome f (flatLookup k m)
      else flatLookup k m := by
  induction ks generalizing m with
  | nil => simp [flatRemoveSeq]
  | cons k' ks' ih =>
    simp only [flatRemoveSeq, List.foldl_cons]
    rw [show (List.foldl (fun m k => flatRemove k f m) (flatRemove k' f m) ks')
      = flatRemoveSeq f ks' (flatRemove k' f m) from rfl,
      ih _ (flatKeysNodup_flatRemove k' f m hnd)]
    by_cases hk : k = k'
    · subst hk
      rw [flatLookup_flatRemove_self_outcome k f m hnd]
      by_cases hmem : k ∈ ks'
      · rw [if_pos hmem, if_pos (List.mem_cons_self k ks'),
          removeOutcome_idem]
      · rw [if_neg hmem, if_pos (List.mem_cons_self k ks')]
    · rw [flatLookup_flatRemove_ne k' k f m hk]
      by_cases hmem : k ∈ ks'
      · rw [if_pos hmem, if_pos (List.mem_cons_of_mem k' hmem)]
      · rw [if_neg hmem, if_neg (by
          intro hc
          rcases List.mem_cons.1 hc with h | h
          exacts [hk h, hmem h])]

theorem removeTagAux_flat_nodup (f : Str) (parts : List Str) (fp : Str)
    (n : TagNode) (m : FlatMap) (h : FlatKeysNodup m) :
    FlatKeysNodup (removeTagAux f parts fp n m).2.1 := by
  induction parts generalizing fp n m with
  | nil => exact h
  | cons p rest ih =>
    simp only [removeTagAux]
    cases hc : lookupChild p n.children with
    | none => exact h
    | some c =>
      exact ih _ _ _ (flatKeysNodup_flatRemove (joinStep fp p) f m h)

theorem flatKeysNodup_addTag (f t : Str) (ts : TagSystem)
    (h : FlatKeysNodup ts.tagToFilesMap) :
    FlatKeysNodup (addTag f t ts).tagToFilesMap := by
  show FlatKeysNodup (addTagAux f (splitDots t) [] ts.root ts.tagToFilesMap).2
  rw [addTagAux_flat]
  exact flatKeysNodup_flatAddSeq _ _ _ h

theorem flatKeysNodup_removeTag (f t : Str) (ts : TagSystem)
    (h : FlatKeysNodup ts.tagToFilesMap) :
    FlatKeysNodup (removeTag f t ts).tagToFilesMap :=
  removeTagAux_flat_nodup f (splitDots t) [] ts.root ts.tagToFilesMap h

theorem flatLookup_removeTag (f t k : Str) (ts : TagSystem)
    (hnd : FlatKeysNodup ts.tagToFilesMap)
    (h : nodeExists ts.root (splitDots t)) :
    flatLookup k (removeTag f t ts).tagToFilesMap =
      if k ∈ accPaths (splitDots t)
      then removeOutcome f (flatLookup k ts.tagToFilesMap)
      else flatLookup k ts.tagToFilesMap := by
  show flatLookup k
    (removeTagAux f (splitDots t) [] ts.root ts.tagToFilesMap).2.1 = _
  rw [removeTagAux_flat f (splitDots t) [] ts.root ts.tagToFilesMap h,
    flatLookup_flatRemoveSeq f k _ _ hnd]
  rfl

/-! ### `addTags`/`removeTags` over a whole tag list -/

theorem filesAt_addTags (f : Str) (T : List Str) (ts : TagSystem)
    (σ : List Str) :
    filesAt (addTags f T ts).root σ =
      if ∃ t ∈ T, σ ∈ segPrefixes (splitDots t)
      then insert f (filesAt ts.root σ)
      else filesAt ts.root σ := by
  induction T generalizing ts with
  | nil => simp [addTags]
  | cons t T' ih =>
    show filesAt (addTags f T' (addTag f t ts)).root σ = _
    rw [ih, filesAt_addTag]
    by_cases h1 : ∃ t' ∈ T', σ ∈ segPrefixes (splitDots t')
    · have h1' : ∃ t' ∈ t :: T', σ ∈ segPrefixes (splitDots t') := by
        rcases h1 with ⟨t', ht', hσ⟩
        exact ⟨t', List.mem_cons_of_mem t ht', hσ⟩
      rw [if_pos h1, if_pos h1']
      by_cases h2 : σ ∈ segPrefixes (splitDots t)
      · rw [if_pos h2, Finset.insert_idem]
      · rw [if_neg h2]
    · rw [if_neg h1]
      by_cases h2 : σ ∈ segPrefixes (splitDots t)
      · have h2' : ∃ t' ∈ t :: T', σ ∈ segPrefixes (splitDots t') :=
          ⟨t, List.mem_cons_self t T', h2⟩
        rw [if_pos h2, if_pos h2']
      · have h2' : ¬∃ t' ∈ t :: T', σ ∈ segPrefixes (splitDots t') := by
          rintro ⟨t', ht', hσ⟩
          rcases List.mem_cons.1 ht' with rfl | ht'
          exacts [h2 hσ, h1 ⟨t', ht', hσ⟩]
        rw [if_neg h2, if_neg h2']

theorem nodeExists_addTags (f : Str) (T : List Str) (ts : TagSystem)
    (σ : List Str) :
    nodeExists (addTags f T ts).root σ ↔
      (∃ t ∈ T, σ ∈ segPrefixes (splitDots t)) ∨ nodeExists ts.root σ := by
  induction T generalizing ts with
  | nil => simp [addTags]
  | cons t T' ih =>
    show nodeExists (addTags f T' (addTag f t ts)).root σ ↔ _
    rw [ih, nodeExists_addTag]
    constructor
    · rintro (⟨t', ht', hσ⟩ | h | h)
      · exact Or.inl ⟨t', List.mem_cons_of_mem t ht', hσ⟩
      · exact Or.inl ⟨t, List.mem_cons_self t T', h⟩
      · exact Or.inr h
    · rintro (⟨t', ht', hσ⟩ | h)
      · rcases List.mem_cons.1 ht' with rfl | ht'
        · exact Or.inr (Or.inl hσ)
        · exact Or.inl ⟨t', ht', hσ⟩
      · exact Or.inr (Or.inr h)

theorem flatLookup_addTags (f : Str) (T : List Str) (ts : TagSystem)
    (k : Str) :
    flatLookup k (addTags f T ts).tagToFilesMap =
      if ∃ t ∈ T, k ∈ accPaths (splitDots t)
      then some (insert f ((flatLookup k ts.tagToFilesMap).getD ∅))
      else flatLookup k ts.tagToFilesMap := by
  induction T generalizing ts with
  | nil => simp [addTags]
  | cons t T' ih =>
    show flatLookup k (addTags f T' (addTag f t ts)).tagToFilesMap = _
    rw [ih, flatLookup_addTag]
    by_cases h1 : ∃ t' ∈ T', k ∈ accPaths (splitDots t')
    · have h1' : ∃ t' ∈ t :: T', k ∈ accPaths (splitDots t') := by
        rcases h1 with ⟨t', ht', hk⟩
        exact ⟨t', List.mem_cons_of_mem t ht', hk⟩
      rw [if_pos h1, if_pos h1']
      by_cases h2 : k ∈ accPaths (splitDots t)
      · rw [if_pos h2]
        simp [Finset.insert_idem]
      · rw [if_neg h2]
    · rw [if_neg h1]
      by_cases h2 : k ∈ accPaths (splitDots t)
      · have h2' : ∃ t' ∈ t :: T', k ∈ accPaths (splitDots t') :=
          ⟨t, List.mem_cons_self t T', h2⟩
        rw [if_pos h2, if_pos h2']
      · have h2' : ¬∃ t' ∈ t :: T', k ∈ accPaths (splitDots t') := by
          rintro ⟨t', ht', hk⟩
          rcases List.mem_cons.1 ht' with rfl | ht'
          exacts [h2 hk, h1 ⟨t', ht', hk⟩]
        rw [if_neg h2, if_neg h2']

theorem nodeExists_removeTags (f : Str) (T : List Str) (ts : TagSystem)
    (σ : List Str) :
    nodeExists (removeTags f T ts).root σ ↔ nodeExists ts.root σ := by
  induction T generalizing ts with
  | nil => simp [removeTags]
  | cons t T' ih =>
    show nodeExists (removeTags f T' (removeTag f t ts)).root σ ↔ _
    rw [ih, nodeExists_removeTag]

theorem filesAt_removeTags (f : Str) (T : List Str) (ts : TagSystem)
    (hT : ∀ t ∈ T, nodeExists ts.root (splitDots t)) (σ : List Str) :
    filesAt (removeTags f T ts).root σ =
      if ∃ t ∈ T, σ ∈ segPrefixes (splitDots t)
      then (filesAt ts.root σ).erase f
      else filesAt ts.root σ := by
  induction T generalizing ts with
  | nil => simp [removeTags]
  | cons t T' ih =>
    show filesAt (removeTags f T' (removeTag f t ts)).root σ = _
    have hex : nodeExists ts.root (splitDots t) :=
      hT t (List.mem_cons_self t T')
    have hT' : ∀ t' ∈ T', nodeExists (removeTag f t ts).root (splitDots t') :=
      fun t' ht' => (nodeExists_removeTag f t ts _).2
        (hT t' (List.mem_cons_of_mem t ht'))
    rw [ih _ hT', filesAt_removeTag f t ts hex]
    by_cases h1 : ∃ t' ∈ T', σ ∈ segPrefixes (splitDots t')
    · have h1' : ∃ t' ∈ t :: T', σ ∈ segPrefixes (splitDots t') := by
        rcases h1 with ⟨t', ht', hσ⟩
        exact ⟨t', List.mem_cons_of_mem t ht', hσ⟩
      rw [if_pos h1, if_pos h1']
      by_cases h2 : σ ∈ segPrefixes (splitDots t)
      · rw [if_pos h2, Finset.erase_idem]
      · rw [if_neg h2]
    · rw [if_neg h1]
      by_cases h2 : σ ∈ segPrefixes (splitDots t)
      · have h2' : ∃ t' ∈ t :: T', σ ∈ segPrefixes (splitDots t') :=
          ⟨t, List.mem_cons_self t T', h2⟩
        rw [if_pos h2, if_pos h2']
      · have h2' : ¬∃ t' ∈ t :: T', σ ∈ segPrefixes (splitDots t') := by
          rintro ⟨t', ht', hσ⟩
          rcases List.mem_cons.1 ht' with rfl | ht'
          exacts [h2 hσ, h1 ⟨t', ht', hσ⟩]
        rw [if_neg h2, if_neg h2']

theorem flatKeysNodup_addTags (f : Str) (T : List Str) (ts : TagSystem)
    (h : FlatKeysNodup ts.tagToFilesMap) :
    FlatKeysNodup (addTags f T ts).tagToFilesMap := by
  induction T generalizing ts with
  | nil => exact h
  | cons t T' ih => exact ih _ (flatKeysNodup_addTag f t ts h)

theorem flatKeysNodup_removeTags (f : Str) (T : List Str) (ts : TagSystem)
    (h : FlatKeysNodup ts.tagToFilesMap) :
    FlatKeysNodup (removeTags f T ts).tagToFilesMap := by
  induction T generalizing ts with
  | nil => exact h
  | cons t T' ih => exact ih _ (flatKeysNodup_removeTag f t ts h)

theorem flatLookup_removeTags (f : Str) (T : List Str) (ts : TagSystem)
    (k : Str) (hnd : FlatKeysNodup ts.tagToFilesMap)
    (hT : ∀ t ∈ T, nodeExists ts.root (splitDots t)) :
    flatLookup k (removeTags f T ts).tagToFilesMap =
      if ∃ t ∈ T, k ∈ accPaths (splitDots t)
      then removeOutcome f (flatLookup k ts.tagToFilesMap)
      else flatLookup k ts.tagToFilesMap := by
  induction T generalizing ts with
  | nil => simp [removeTags]
  | cons t T' ih =>
    show flatLookup k (removeTags f T' (removeTag f t ts)).tagToFilesMap = _
    have hex : nodeExists ts.root (splitDots t) :=
      hT t (List.mem_cons_self t T')
    have hT' : ∀ t' ∈ T', nodeExists (removeTag f t ts).root (splitDots t') :=
      fun t' ht' => (nodeExists_removeTag f t ts _).2
        (hT t' (List.mem_cons_of_mem t ht'))
    rw [ih _ (flatKeysNodup_removeTag f t ts hnd) hT',
      flatLookup_removeTag f t k ts hnd hex]
    by_cases h1 : ∃ t' ∈ T', k ∈ accPaths (splitDots t')
    · have h1' : ∃ t' ∈ t :: T', k ∈ accPaths (splitDots t') := by
        rcases h1 with ⟨t', ht', hk⟩
        exact ⟨t', List.mem_cons_of_mem t ht', hk⟩
      rw [if_pos h1, if_pos h1']
      by_cases h2 : k ∈ accPaths (splitDots t)
      · rw [if_pos h2, removeOutcome_idem]
      · rw [if_neg h2]
    · rw [if_neg h1]
      by_cases h2 : k ∈ accPaths (splitDots t)
      · have h2' : ∃ t' ∈ t :: T', k ∈ accPaths (splitDots t') :=
          ⟨t, List.mem_cons_self t T', h2⟩
        rw [if_pos h2, if_pos h2']
      · have h2' : ¬∃ t' ∈ t :: T', k ∈ accPaths (splitDots t') := by
          rintro ⟨t', ht', hk⟩
          rcases List.mem_cons.1 ht' with rfl | ht'
          exacts [h2 hk, h1 ⟨t', ht', hk⟩]
        rw [if_neg h2, if_neg h2']

/-! ### Wildcard search (`searchWithWildcard` / `queryByWildcard`) -/

theorem sizeOf_snd_lt_of_mem {l : List (Str × TagNode)} {kc : Str × TagNode}
    (h : kc ∈ l) : sizeOf kc.2 < sizeOf l := by
  induction l with
  | nil => cases h
  | cons hd tl ih =>
    rcases List.mem_cons.1 h with rfl | h
    · obtain ⟨k, v⟩ := kc
      simp only [List.cons.sizeOf_spec, Prod.mk.sizeOf_spec]
      omega
    · have := ih h
      simp only [List.cons.sizeOf_spec]
      omega

mutual

/-- `TagSystem.searchWithWildcard` (the recursion on one node).  The JS code
accumulates into a shared `matchedFiles : Set<string>`; the embedding returns
the set of files contributed by the call. -/
def searchW : TagNode → List Str → Finset Str
  | n, [] => n.filePaths
  | n, p :: rest =>
    if p = strL "*" then searchChildren n.children rest
    else if p = strL "**" then
      searchW n rest ∪ searchChildren n.children (p :: rest)
    else
      match _h : lookupChild p n.children with
      | some c => searchW c rest
      | none => ∅
termination_by n ps => (sizeOf n, ps.length)
decreasing_by
  · exact Prod.Lex.left _ _ (TagNode.sizeOf_children_lt n)
  · exact Prod.Lex.right _ (Nat.lt_succ_self _)
  · exact Prod.Lex.left _ _ (TagNode.sizeOf_children_lt n)
  · exact Prod.Lex.left _ _
      (lt_trans (sizeOf_lookupChild _h) (TagNode.sizeOf_children_lt n))

/-- The `for (const child of node.children.values())` fan-out. -/
def searchChildren : List (Str × TagNode) → List Str → Finset Str
  | [], _ => ∅
  | (_, c) :: cs, ps => searchW c ps ∪ searchChildren cs ps
termination_by cs ps => (sizeOf cs, ps.length)
decreasing_by
  · exact Prod.Lex.left _ _ (by
      simp only [List.cons.sizeOf_spec, Prod.mk.sizeOf_spec]
      omega)
  · exact Prod.Lex.left _ _ (by
      simp only [List.cons.sizeOf_spec]
      omega)

end

/-- `TagSystem.queryByWildcard(pattern)` (the JS code returns
`Array.from(matchedFiles)`; the observable set is modelled directly). -/
def queryByWildcard (ts : TagSystem) (pattern : Str) : Finset Str :=
  searchW ts.root (splitDots pattern)

theorem filesAt_cons_some {n : TagNode} {s : Str} {c : TagNode}
    (hc : lookupChild s n.children = some c) (σ : List Str) :
    filesAt n (s :: σ) = filesAt c σ := by
  rw [filesAt_cons, hc]

theorem filesAt_cons_none {n : TagNode} {s : Str}
    (hc : lookupChild s n.children = none) (σ : List Str) :
    filesAt n (s :: σ) = ∅ := by
  rw [filesAt_cons, hc]

theorem lookupChild_mem {k : Str} {c : TagNode} {l : List (Str × TagNode)}
    (h : lookupChild k l = some c) : (k, c) ∈ l := by
  induction l with
  | nil => cases h
  | cons hd tl ih =>
    obtain ⟨k', c'⟩ := hd
    simp only [lookupChild] at h
    by_cases hk : k' = k
    · rw [if_pos hk] at h
      cases h
      subst hk
      exact List.mem_cons_self _ _
    · rw [if_neg hk] at h
      exact List.mem_cons_of_mem _ (ih h)

theorem mem_lookupChild_of_nodup {l : List (Str × TagNode)}
    (hnd : (l.map Prod.fst).Nodup) {k : Str} {c : TagNode}
    (h : (k, c) ∈ l) : lookupChild k l = some c := by
  induction l with
  | nil => cases h
  | cons hd tl ih =>
    obtain ⟨k', c'⟩ := hd
    simp only [List.map_cons, List.nodup_cons] at hnd
    rcases List.mem_cons.1 h with he | h
    · cases he
      simp [lookupChild]
    · have hk : k' ≠ k := by
        intro he
        subst he
        exact hnd.1 (List.mem_map.2 ⟨(k', c), h, rfl⟩)
      simp only [lookupChild, if_neg hk]
      exact ih hnd.2 h

/-- Well-formedness of a trie node: children keys are unique (guaranteed by
the JS `Map`), recursively. -/
def WFNode : TagNode → Prop
  | n => (n.children.map Prod.fst).Nodup ∧ ∀ kc ∈ n.children, WFNode kc.2
termination_by n => sizeOf n
decreasing_by
  exact lt_trans (sizeOf_snd_lt_of_mem (by assumption))
    (TagNode.sizeOf_children_lt n)

theorem WFNode_iff (n : TagNode) :
    WFNode n ↔
      (n.children.map Prod.fst).Nodup ∧ ∀ kc ∈ n.children, WFNode kc.2 := by
  rw [WFNode]

/-- The wildcard-pattern matching relation of the specification: `*` consumes
exactly one segment, `**` zero or more, a literal matches itself. -/
inductive PatMatch : List Str → List Str → Prop where
  | nil : PatMatch [] []
  | star {s : Str} {ps σ : List Str} :
      PatMatch ps σ → PatMatch (strL "*" :: ps) (s :: σ)
  | dstarZero {ps σ : List Str} :
      PatMatch ps σ → PatMatch (strL "**" :: ps) σ
  | dstarMore {s : Str} {ps σ : List Str} :
      PatMatch (strL "**" :: ps) σ → PatMatch (strL "**" :: ps) (s :: σ)
  | lit {p : Str} {ps σ : List Str} :
      p ≠ strL "*" → p ≠ strL "**" →
      PatMatch ps σ → PatMatch (p :: ps) (p :: σ)

theorem patMatch_nil_iff (σ : List Str) : PatMatch [] σ ↔ σ = [] := by
  constructor
  · intro h; cases h; rfl
  · rintro rfl; exact PatMatch.nil

theorem strL_dstar_ne_star : strL "**" ≠ strL "*" := by decide

theorem patMatch_star_iff (ps σ : List Str) :
    PatMatch (strL "*" :: ps) σ ↔
      ∃ s σ', σ = s :: σ' ∧ PatMatch ps σ' := by
  constructor
  · intro h
    cases h with
    | star h => exact ⟨_, _, rfl, h⟩
    | lit h1 h2 h3 => exact absurd rfl h1
  · rintro ⟨s, σ', rfl, h⟩
    exact PatMatch.star h

theorem patMatch_dstar_iff (ps σ : List Str) :
    PatMatch (strL "**" :: ps) σ ↔
      PatMatch ps σ ∨
        ∃ s σ', σ = s :: σ' ∧ PatMatch (strL "**" :: ps) σ' := by
  constructor
  · intro h
    cases h with
    | dstarZero h => exact Or.inl h
    | dstarMore h => exact Or.inr ⟨_, _, rfl, h⟩
    | lit h1 h2 h3 => exact absurd rfl h2
  · rintro (h | ⟨s, σ', rfl, h⟩)
    · exact PatMatch.dstarZero h
    · exact PatMatch.dstarMore h

theorem patMatch_lit_iff (p : Str) (ps σ : List Str) (h1 : p ≠ strL "*")
    (h2 : p ≠ strL "**") :
    PatMatch (p :: ps) σ ↔ ∃ σ', σ = p :: σ' ∧ PatMatch ps σ' := by
  constructor
  · intro h
    cases h with
    | star h => exact absurd rfl h1
    | dstarZero h => exact absurd rfl h2
    | dstarMore h => exact absurd rfl h2
    | lit h3 h4 h5 => exact ⟨_, rfl, h5⟩
  · rintro ⟨σ', rfl, h⟩
    exact PatMatch.lit h1 h2 h

theorem searchW_nil (n : TagNode) : searchW n [] = n.filePaths := by
  simp only [searchW]

theorem searchW_star (n : TagNode) (rest : List Str) :
    searchW n (strL "*" :: rest) = searchChildren n.children rest := by
  simp [searchW]

theorem searchW_dstar (n : TagNode) (rest : List Str) :
    searchW n (strL "**" :: rest) =
      searchW n rest ∪ searchChildren n.children (strL "**" :: rest) := by
  simp only [searchW]
  rw [if_neg strL_dstar_ne_star]
  simp

theorem searchW_lit_some {n : TagNode} {p : Str} {c : TagNode}
    (h1 : p ≠ strL "*") (h2 : p ≠ strL "**")
    (hc : lookupChild p n.children = some c) (rest : List Str) :
    searchW n (p :: rest) = searchW c rest := by
  simp only [searchW]
  rw [if_neg h1, if_neg h2]
  split
  · next c' heq => rw [hc] at heq; cases heq; rfl
  · next heq => rw [hc] at heq; cases heq

theorem searchW_lit_none {n : TagNode} {p : Str}
    (h1 : p ≠ strL "*") (h2 : p ≠ strL "**")
    (hc : lookupChild p n.children = none) (rest : List Str) :
    searchW n (p :: rest) = ∅ := by
  simp only [searchW]
  rw [if_neg h1, if_neg h2]
  split
  · next c' heq => rw [hc] at heq; cases heq
  · next heq => rfl

theorem mem_searchChildren (cs : List (Str × TagNode)) (ps : List Str)
    (f : Str) :
    f ∈ searchChildren cs ps ↔ ∃ kc ∈ cs, f ∈ searchW kc.2 ps := by
  induction cs with
  | nil => simp [searchChildren]
  | cons hd tl ih =>
    obtain ⟨k, c⟩ := hd
    simp only [searchChildren, Finset.mem_union, ih, List.mem_cons]
    constructor
    · rintro (h | ⟨kc, hkc, h⟩)
      · exact ⟨(k, c), Or.inl rfl, h⟩
      · exact ⟨kc, Or.inr hkc, h⟩
    · rintro ⟨kc, hkc | hkc, h⟩
      · cases hkc; exact Or.inl h
      · exact Or.inr ⟨kc, hkc, h⟩

theorem mem_searchW_aux :
    ∀ (N : Nat) (n : TagNode), sizeOf n < N → WFNode n →
      ∀ (ps : List Str) (f : Str),
        (f ∈ searchW n ps ↔ ∃ σ, PatMatch ps σ ∧ f ∈ filesAt n σ) := by
  intro N
  induction N with
  | zero => intro n h; omega
  | succ N ihN =>
    intro n hn hwf ps
    have hsz : ∀ kc : Str × TagNode, kc ∈ n.children → sizeOf kc.2 < N := by
      intro kc hmem
      have h1 := sizeOf_snd_lt_of_mem hmem
      have h2 := TagNode.sizeOf_children_lt n
      omega
    rcases (WFNode_iff n).1 hwf with ⟨hnd, hch⟩
    induction ps with
    | nil =>
      intro f
      rw [searchW_nil]
      constructor
      · intro h
        exact ⟨[], PatMatch.nil, by simpa using h⟩
      · rintro ⟨σ, hm, hf⟩
        rw [patMatch_nil_iff] at hm
        subst hm
        simpa using hf
    | cons p rest ihp =>
      intro f
      by_cases hstar : p = strL "*"
      · subst hstar
        rw [searchW_star, mem_searchChildren]
        constructor
        · rintro ⟨⟨s, c⟩, hmem, hf⟩
          have hc : lookupChild s n.children = some c :=
            mem_lookupChild_of_nodup hnd hmem
          rcases (ihN c (hsz _ hmem) (hch _ hmem) rest f).1 hf
            with ⟨σ', hm, hfa⟩
          exact ⟨s :: σ', PatMatch.star hm,
            by rw [filesAt_cons_some hc]; exact hfa⟩
        · rintro ⟨σ, hm, hfa⟩
          rcases (patMatch_star_iff rest σ).1 hm with ⟨s, σ', rfl, hm'⟩
          cases hc : lookupChild s n.children with
          | none =>
            rw [filesAt_cons_none hc] at hfa
            exact absurd hfa (Finset.not_mem_empty f)
          | some c =>
            rw [filesAt_cons_some hc] at hfa
            have hmem := lookupChild_mem hc
            exact ⟨(s, c), hmem,
              (ihN c (hsz _ hmem) (hch _ hmem) rest f).2 ⟨σ', hm', hfa⟩⟩
      · by_cases hdstar : p = strL "**"
        · subst hdstar
          rw [searchW_dstar]
          rw [Finset.mem_union, mem_searchChildren]
          constructor
          · rintro (h | ⟨⟨s, c⟩, hmem, hf⟩)
            · rcases (ihp f).1 h with ⟨σ, hm, hfa⟩
              exact ⟨σ, PatMatch.dstarZero hm, hfa⟩
            · have hc : lookupChild s n.children = some c :=
                mem_lookupChild_of_nodup hnd hmem
              rcases (ihN c (hsz _ hmem) (hch _ hmem)
                  (strL "**" :: rest) f).1 hf with ⟨σ', hm, hfa⟩
              exact ⟨s :: σ', PatMatch.dstarMore hm,
                by rw [filesAt_cons_some hc]; exact hfa⟩
          · rintro ⟨σ, hm, hfa⟩
            rcases (patMatch_dstar_iff rest σ).1 hm with hm' | ⟨s, σ', rfl, hm'⟩
            · exact Or.inl ((ihp f).2 ⟨σ, hm', hfa⟩)
            · cases hc : lookupChild s n.children with
              | none =>
                rw [filesAt_cons_none hc] at hfa
                exact absurd hfa (Finset.not_mem_empty f)
              | some c =>
                rw [filesAt_cons_some hc] at hfa
                have hmem := lookupChild_mem hc
                exact Or.inr ⟨(s, c), hmem,
                  (ihN c (hsz _ hmem) (hch _ hmem) (strL "**" :: rest) f).2
                    ⟨σ', hm', hfa⟩⟩
        · cases hc : lookupChild p n.children with
          | none =>
            rw [searchW_lit_none hstar hdstar hc]
            constructor
            · intro h
              exact absurd h (Finset.not_mem_empty f)
            · rintro ⟨σ, hm, hfa⟩
              rcases (patMatch_lit_iff p rest σ hstar hdstar).1 hm
                with ⟨σ', rfl, hm'⟩
              rw [filesAt_cons_none hc] at hfa
              exact absurd hfa (Finset.not_mem_empty f)
          | some c =>
            rw [searchW_lit_some hstar hdstar hc]
            have hmem := lookupChild_mem hc
            rw [ihN c (hsz _ hmem) (hch _ hmem) rest f]
            constructor
            · rintro ⟨σ', hm, hfa⟩
              exact ⟨p :: σ', PatMatch.lit hstar hdstar hm,
                by rw [filesAt_cons_some hc]; exact hfa⟩
            · rintro ⟨σ, hm, hfa⟩
              rcases (patMatch_lit_iff p rest σ hstar hdstar).1 hm
                with ⟨σ', rfl, hm'⟩
              rw [filesAt_cons_some hc] at hfa
              exact ⟨σ', hm', hfa⟩

/-- The characterization of the wildcard search at the `TagSystem` level. -/
theorem mem_queryByWildcard (ts : TagSystem) (hwf : WFNode ts.root)
    (pattern : Str) (f : Str) :
    f ∈ queryByWildcard ts pattern ↔
      ∃ σ, PatMatch (splitDots pattern) σ ∧ f ∈ filesAt ts.root σ :=
  mem_searchW_aux (sizeOf ts.root + 1) ts.root (Nat.lt_succ_self _) hwf
    (splitDots pattern) f

theorem keys_setChild (k : Str) (v : TagNode) (l : List (Str × TagNode)) :
    (setChild k v l).map Prod.fst =
      if k ∈ l.map Prod.fst then l.map Prod.fst
      else l.map Prod.fst ++ [k] := by
  induction l with
  | nil => simp [setChild]
  | cons hd tl ih =>
    obtain ⟨k', c'⟩ := hd
    by_cases hk : k' = k
    · subst hk
      simp [setChild]
    · simp only [setChild, if_neg hk, List.map_cons, ih]
      by_cases hmem : k ∈ tl.map Prod.fst
      · rw [if_pos hmem,
          if_pos (List.mem_cons_of_mem _ hmem)]
      · rw [if_neg hmem, if_neg (by
          intro hc
          rcases List.mem_cons.1 hc with he | he
          exacts [hk he.symm, hmem he])]
        simp

theorem mem_setChild {kc : Str × TagNode} {k : Str} {v : TagNode}
    {l : List (Str × TagNode)} (h : kc ∈ setChild k v l) :
    kc = (k, v) ∨ kc ∈ l := by
  induction l with
  | nil => simpa [setChild] using h
  | cons hd tl ih =>
    obtain ⟨k', c'⟩ := hd
    by_cases hk : k' = k
    · subst hk
      rw [setChild, if_pos rfl] at h
      rcases List.mem_cons.1 h with he | he
      exacts [Or.inl he, Or.inr (List.mem_cons_of_mem _ he)]
    · rw [setChild, if_neg hk] at h
      rcases List.mem_cons.1 h with he | he
      · exact Or.inr (he ▸ List.mem_cons_self _ _)
      · rcases ih he with he' | he'
        exacts [Or.inl he', Or.inr (List.mem_cons_of_mem _ he')]

theorem nodup_keys_setChild (k : Str) (v : TagNode)
    (l : List (Str × TagNode)) (h : (l.map Prod.fst).Nodup) :
    ((setChild k v l).map Prod.fst).Nodup := by
  rw [keys_setChild]
  by_cases hmem : k ∈ l.map Prod.fst
  · rwa [if_pos hmem]
  · rw [if_neg hmem, List.nodup_append]
    refine ⟨h, List.nodup_singleton k, ?_⟩
    intro a ha hb
    rw [List.mem_singleton] at hb
    subst hb
    exact hmem ha

theorem WFNode_createNode (name fp : Str) : WFNode (createNode name fp) := by
  rw [WFNode_iff]
  exact ⟨by simp [createNode], by simp [createNode]⟩

theorem WFNode_addTagAux (f : Str) (parts : List Str) (fp : Str)
    (n : TagNode) (m : FlatMap) (h : WFNode n) :
    WFNode (addTagAux f parts fp n m).1 := by
  induction parts generalizing fp n m with
  | nil => exact h
  | cons p rest ih =>
    rcases (WFNode_iff n).1 h with ⟨hnd, hch⟩
    simp only [addTagAux]
    rw [WFNode_iff]
    constructor
    · simp only [TagNode.children_mk]
      exact nodup_keys_setChild _ _ _ hnd
    · intro kc hkc
      simp only [TagNode.children_mk] at hkc
      rcases mem_setChild hkc with rfl | hkc'
      · show WFNode (addTagAux f rest _ _ _).1
        apply ih
        have hc0 : WFNode ((lookupChild p n.children).getD
            (createNode p (joinStep fp p))) := by
          cases hc : lookupChild p n.children with
          | some c => exact hch _ (lookupChild_mem hc)
          | none => exact WFNode_createNode _ _
        rw [WFNode_iff] at hc0 ⊢
        exact hc0
      · exact hch _ hkc'

theorem WFNode_removeTagAux (f : Str) (parts : List Str) (fp : Str)
    (n : TagNode) (m : FlatMap) (h : WFNode n) :
    WFNode (removeTagAux f parts fp n m).1 := by
  induction parts generalizing fp n m with
  | nil => exact h
  | cons p rest ih =>
    rcases (WFNode_iff n).1 h with ⟨hnd, hch⟩
    simp only [removeTagAux]
    cases hc : lookupChild p n.children with
    | none => exact h
    | some c =>
      simp only
      rw [WFNode_iff]
      constructor
      · simp only [TagNode.children_mk]
        exact nodup_keys_setChild _ _ _ hnd
      · intro kc hkc
        simp only [TagNode.children_mk] at hkc
        rcases mem_setChild hkc with rfl | hkc'
        · have hr : WFNode (removeTagAux f rest (joinStep fp p) c
              (flatRemove (joinStep fp p) f m)).1 :=
            ih _ _ _ (hch _ (lookupChild_mem hc))
          show WFNode (if _ then _ else _)
          split
          · rw [WFNode_iff]
            simp only [TagNode.children_mk]
            rw [WFNode_iff] at hr
            exact hr
          · exact hr
        · exact hch _ hkc'

theorem WFNode_addTag (f t : Str) (ts : TagSystem) (h : WFNode ts.root) :
    WFNode (addTag f t ts).root :=
  WFNode_addTagAux f (splitDots t) [] ts.root ts.tagToFilesMap h

theorem WFNode_removeTag (f t : Str) (ts : TagSystem) (h : WFNode ts.root) :
    WFNode (removeTag f t ts).root :=
  WFNode_removeTagAux f (splitDots t) [] ts.root ts.tagToFilesMap h

theorem WFNode_addTags (f : Str) (T : List Str) (ts : TagSystem)
    (h : WFNode ts.root) : WFNode (addTags f T ts).root := by
  induction T generalizing ts with
  | nil => exact h
  | cons t T' ih => exact ih _ (WFNode_addTag f t ts h)

theorem WFNode_removeTags (f : Str) (T : List Str) (ts : TagSystem)
    (h : WFNode ts.root) : WFNode (removeTags f T ts).root := by
  induction T generalizing ts with
  | nil => exact h
  | cons t T' ih => exact ih _ (WFNode_removeTag f t ts h)

/-! ### Round trips between `splitDots`, `joinSegs` and `accPaths` -/

theorem splitSeg_sep_not_mem (sep : Char) (l : Str) :
    ∀ s ∈ splitSeg sep l, sep ∉ s := by
  induction l with
  | nil =>
    intro s hs
    simp only [splitSeg, List.mem_singleton] at hs
    subst hs
    simp
  | cons c cs ih =>
    intro s hs
    by_cases hc : c = sep
    · subst hc
      rw [splitSeg_cons_sep] at hs
      rcases List.mem_cons.1 hs with rfl | hs
      · simp
      · exact ih s hs
    · rw [splitSeg_cons_ne sep c cs hc] at hs
      rcases List.mem_cons.1 hs with rfl | hs
      · intro hmem
        rcases List.mem_cons.1 hmem with he | hmem
        · exact hc he.symm
        · cases hh : splitSeg sep cs with
          | nil => exact splitSeg_ne_nil sep cs hh
          | cons s0 ss =>
            refine ih s0 (hh ▸ List.mem_cons_self s0 ss) ?_
            rwa [hh] at hmem

      · exact ih s (List.mem_of_mem_tail hs)

theorem joinSegs_cons_ne_nil (h : Str) (tl : List Str) (htl : tl ≠ []) :
    joinSegs (h :: tl) = h ++ '.' :: joinSegs tl := by
  cases tl with
  | nil => exact absurd rfl htl
  | cons a as => rfl

/-- Joining the segments of a split restores the string. -/
theorem joinSegs_splitDots (t : Str) : joinSegs (splitDots t) = t := by
  induction t with
  | nil => rfl
  | cons c cs ih =>
    by_cases hc : c = '.'
    · subst hc
      rw [splitDots, splitSeg_cons_sep,
        joinSegs_cons_ne_nil [] _ (splitSeg_ne_nil '.' cs)]
      simp only [List.nil_append, List.cons.injEq, true_and]
      exact ih
    · rw [splitDots, splitSeg_cons_ne '.' c cs hc]
      cases hh : splitSeg '.' cs with
      | nil => exact absurd hh (splitSeg_ne_nil '.' cs)
      | cons s0 ss =>
        simp only [List.headI, List.tail]
        cases ss with
        | nil =>
          show (c :: s0 : Str) = c :: cs
          have : joinSegs (splitDots cs) = cs := ih
          rw [splitDots, hh] at this
          simp only [joinSegs] at this
          rw [this]
        | cons s1 ss' =>
          rw [joinSegs_cons_ne_nil _ _ (by simp)]
          show c :: (s0 ++ '.' :: joinSegs (s1 :: ss')) = c :: cs
          have : joinSegs (splitDots cs) = cs := ih
          rw [splitDots, hh, joinSegs_cons_ne_nil _ _ (by simp)] at this
          rw [this]

/-- Splitting a join of dot-free segments restores the segment list. -/
theorem splitDots_joinSegs (segs : List Str) (hne : segs ≠ [])
    (hfree : ∀ s ∈ segs, '.' ∉ s) :
    splitDots (joinSegs segs) = segs := by
  induction segs with
  | nil => exact absurd rfl hne
  | cons s ss ih =>
    cases ss with
    | nil =>
      show splitDots s = [s]
      exact splitSeg_no_sep '.' s (hfree s (List.mem_cons_self s []))
    | cons a as =>
      rw [joinSegs_cons_ne_nil s _ (by simp), splitDots,
        splitSeg_append '.' s _ (hfree s (List.mem_cons_self _ _))]
      rw [show splitSeg '.' (joinSegs (a :: as)) =
        splitDots (joinSegs (a :: as)) from rfl,
        ih (by simp) (fun x hx => hfree x (List.mem_cons_of_mem s hx))]

theorem accPathsFrom_of_ne_nil (fp : Str) (parts : List Str) (hfp : fp ≠ []) :
    accPathsFrom fp parts =
      (segPrefixes parts).map (fun pre => fp ++ '.' :: joinSegs pre) := by
  induction parts generalizing fp with
  | nil => simp [accPathsFrom, segPrefixes]
  | cons p rest ih =>
    have hstep : joinStep fp p = fp ++ '.' :: p := by
      rw [joinStep, if_neg hfp]
    rw [accPathsFrom, hstep, ih _ (by simp [List.append_ne_nil_of_left_ne_nil,
      hfp])]
    simp only [segPrefixes, List.map_cons, List.map_map]
    congr 1
    apply List.map_congr_left
    intro pre hpre
    have hpre' : pre ≠ [] := segPrefixes_ne_nil_mem pre hpre
    simp only [Function.comp_apply]
    rw [joinSegs_cons_ne_nil p pre hpre']
    simp

theorem accPaths_of_head_ne_nil (p : Str) (rest : List Str) (hp : p ≠ []) :
    accPaths (p :: rest) = (segPrefixes (p :: rest)).map joinSegs := by
  rw [accPaths, accPathsFrom]
  have h0 : joinStep [] p = p := by rw [joinStep, if_pos rfl]
  rw [h0, accPathsFrom_of_ne_nil p rest hp]
  simp only [segPrefixes, List.map_cons, List.map_map]
  congr 1
  apply List.map_congr_left
  intro pre hpre
  have hpre' : pre ≠ [] := segPrefixes_ne_nil_mem pre hpre
  simp only [Function.comp_apply]
  rw [joinSegs_cons_ne_nil p pre hpre']

/-- A member of `accPaths` of a well-formed tag's segments is the tag itself
or a dot-prefix of it (the tag dot-extends it). -/
theorem accPaths_mem_wf (t k : Str)
    (hwf : ∀ s ∈ splitDots t, s ≠ [])
    (h : k ∈ accPaths (splitDots t)) :
    t = k ∨ ∃ r, t = k ++ '.' :: r := by
  cases hp : splitDots t with
  | nil => exact absurd hp (splitSeg_ne_nil '.' t)
  | cons p prest =>
    have hpne : p ≠ [] := hwf p (hp ▸ List.mem_cons_self p prest)
    rw [hp, accPaths_of_head_ne_nil p prest hpne] at h
    rcases List.mem_map.1 h with ⟨pre, hpre, rfl⟩
    rcases mem_segPrefixes.1 hpre with ⟨i, hi0, hil, rfl⟩
    have ht : t = joinSegs (p :: prest) := by
      rw [← hp, joinSegs_splitDots]
    by_cases hfull : i = (p :: prest).length
    · left
      rw [ht, hfull, List.take_length]
    · right
      have hsplit : p :: prest =
          (p :: prest).take i ++ (p :: prest).drop i :=
        (List.take_append_drop i (p :: prest)).symm
      refine ⟨joinSegs ((p :: prest).drop i), ?_⟩
      rw [ht]
      conv_lhs => rw [hsplit]
      rw [joinSegs_append]
      · intro hc
        have hlen := congrArg List.length hc
        rw [List.length_take] at hlen
        simp only [List.length_nil, List.length_cons] at hlen
        omega
      · intro hc
        have hlen := congrArg List.length hc
        rw [List.length_drop] at hlen
        simp only [List.length_nil, List.length_cons] at hlen hil hfull
        omega

/-! ### Membership in the query surface -/

theorem mem_queryByTag_iff (ts : TagSystem) (k g : Str) :
    g ∈ queryByTag ts k ↔
      ∃ s, flatLookup k ts.tagToFilesMap = some s ∧ g ∈ s := by
  rw [queryByTag]
  cases h : flatLookup k ts.tagToFilesMap with
  | none => simp
  | some s => simp

theorem mem_queryByTag_addTags (f : Str) (T : List Str) (ts : TagSystem)
    (k g : Str) :
    g ∈ queryByTag (addTags f T ts) k ↔
      (g = f ∧ ∃ t ∈ T, k ∈ accPaths (splitDots t)) ∨
        g ∈ queryByTag ts k := by
  rw [mem_queryByTag_iff, mem_queryByTag_iff]
  rw [flatLookup_addTags]
  by_cases hk : ∃ t ∈ T, k ∈ accPaths (splitDots t)
  · rw [if_pos hk]
    cases h : flatLookup k ts.tagToFilesMap with
    | none => simp [h, hk]
    | some s => simp [h, hk]
  · rw [if_neg hk]
    simp [hk]

theorem mem_getAllTags_iff (ts : TagSystem) (k : Str) :
    k ∈ getAllTags ts ↔ (flatLookup k ts.tagToFilesMap).isSome := by
  rw [getAllTags]
  induction ts.tagToFilesMap with
  | nil => simp [flatLookup]
  | cons hd tl ih =>
    obtain ⟨k', s⟩ := hd
    by_cases hk : k' = k
    · subst hk
      simp [flatLookup]
    · simp only [List.map_cons, List.mem_cons, flatLookup, if_neg hk, ih]
      constructor
      · rintro (he | h)
        · exact absurd he.symm hk
        · exact h
      · exact Or.inr

theorem flatLookup_mem {k : Str} {s : Finset Str} {m : FlatMap}
    (h : flatLookup k m = some s) : (k, s) ∈ m := by
  induction m with
  | nil => cases h
  | cons hd tl ih =>
    obtain ⟨k', s'⟩ := hd
    simp only [flatLookup] at h
    by_cases hk : k' = k
    · rw [if_pos hk] at h
      cases h
      subst hk
      exact List.mem_cons_self _ _
    · rw [if_neg hk] at h
      exact List.mem_cons_of_mem _ (ih h)

theorem mem_flatLookup_of_nodup {m : FlatMap} (hnd : FlatKeysNodup m)
    {k : Str} {s : Finset Str} (h : (k, s) ∈ m) :
    flatLookup k m = some s := by
  induction m with
  | nil => cases h
  | cons hd tl ih =>
    obtain ⟨k', s'⟩ := hd
    simp only [FlatKeysNodup, List.map_cons, List.nodup_cons] at hnd
    rcases List.mem_cons.1 h with he | h
    · cases he
      simp [flatLookup]
    · have hk : k' ≠ k := by
        intro he
        subst he
        exact hnd.1 (List.mem_map.2 ⟨(k', s), h, rfl⟩)
      simp only [flatLookup, if_neg hk]
      exact ih hnd.2 h

theorem mem_getTagsForFile_iff (ts : TagSystem) (f k : Str)
    (hnd : FlatKeysNodup ts.tagToFilesMap) :
    k ∈ getTagsForFile ts f ↔
      ∃ s, flatLookup k ts.tagToFilesMap = some s ∧ f ∈ s := by
  rw [getTagsForFile]
  constructor
  · intro h
    rcases List.mem_map.1 h with ⟨⟨kk, ss⟩, hmem, he⟩
    cases he
    rw [List.mem_filter] at hmem
    refine ⟨ss, mem_flatLookup_of_nodup hnd hmem.1, ?_⟩
    simpa using hmem.2
  · rintro ⟨s, hs, hf⟩
    refine List.mem_map.2 ⟨(k, s), ?_, rfl⟩
    rw [List.mem_filter]
    exact ⟨flatLookup_mem hs, by simpa using hf⟩

/-- A sequence of `addTags` calls starting from a given state (the add-only
reachable states of the tag system). -/
def buildAdds (ops : List (Str × List Str)) (ts : TagSystem) : TagSystem :=
  ops.foldl (fun ts p => addTags p.1 p.2 ts) ts

theorem mem_queryByTag_buildAdds (ops : List (Str × List Str))
    (ts : TagSystem) (k g : Str) :
    g ∈ queryByTag (buildAdds ops ts) k ↔
      (∃ p ∈ ops, p.1 = g ∧ ∃ t ∈ p.2, k ∈ accPaths (splitDots t)) ∨
        g ∈ queryByTag ts k := by
  induction ops generalizing ts with
  | nil => simp [buildAdds]
  | cons op ops' ih =>
    obtain ⟨f, T⟩ := op
    show g ∈ queryByTag (buildAdds ops' (addTags f T ts)) k ↔ _
    rw [ih, mem_queryByTag_addTags]
    constructor
    · rintro (⟨p, hp, hg, ht⟩ | ⟨rfl, ht⟩ | h)
      · exact Or.inl ⟨p, List.mem_cons_of_mem _ hp, hg, ht⟩
      · exact Or.inl ⟨(g, T), List.mem_cons_self _ _, rfl, ht⟩
      · exact Or.inr h
    · rintro (⟨p, hp, hg, ht⟩ | h)
      · rcases List.mem_cons.1 hp with rfl | hp
        · exact Or.inr (Or.inl ⟨hg.symm, ht⟩)
        · exact Or.inl ⟨p, hp, hg, ht⟩
      · exact Or.inr (Or.inr h)

/-- The empty tag system holds nothing. -/
theorem queryByTag_empty (k g : Str) :
    g ∉ queryByTag TagSystem.empty k := by
  rw [mem_queryByTag_iff]
  rintro ⟨s, hs, -⟩
  cases hs

/-! ## Claim theorems for the tag system -/

/-- C2: in any add-only tag-system state, for a document `D` carrying tag
`a.b.c`, the exact queries for `a`, `a.b` and `a.b.c` all include `D`, and
the exact query for `a.b.c.d` includes `D` only if `D` carries a tag equal
to `a.b.c.d` or dot-extending it (tags are well formed, as assumed by the
trie: non-empty dot-free segments). -/
theorem C2_exact_query_hierarchy
    (ops : List (Str × List Str)) (D : Str) (a b c d : Str)
    (hwf : ∀ p ∈ ops, ∀ t ∈ p.2, ∀ s ∈ splitDots t, s ≠ [])
    (ha : a ≠ []) (hb : b ≠ []) (hc : c ≠ []) ( _hdd : '.' ∉ d)
    (had : '.' ∉ a) (hbd : '.' ∉ b) (hcd : '.' ∉ c)
    (hin : ∃ T, (D, T) ∈ ops ∧ joinSegs [a, b, c] ∈ T) :
    (D ∈ queryByTag (buildAdds ops TagSystem.empty) (joinSegs [a]) ∧
     D ∈ queryByTag (buildAdds ops TagSystem.empty) (joinSegs [a, b]) ∧
     D ∈ queryByTag (buildAdds ops TagSystem.empty) (joinSegs [a, b, c])) ∧
    (D ∈ queryByTag (buildAdds ops TagSystem.empty) (joinSegs [a, b, c, d]) →
      ∃ p ∈ ops, p.1 = D ∧ ∃ t ∈ p.2,
        t = joinSegs [a, b, c, d] ∨
          ∃ r, t = joinSegs [a, b, c, d] ++ '.' :: r) := by
  have hsplit : splitDots (joinSegs [a, b, c]) = [a, b, c] :=
    splitDots_joinSegs [a, b, c] (by simp) (by
      intro s hs
      simp only [List.mem_cons, List.not_mem_nil, or_false] at hs
      rcases hs with rfl | rfl | rfl
      exacts [had, hbd, hcd])
  have hacc : accPaths (splitDots (joinSegs [a, b, c])) =
      [joinSegs [a], joinSegs [a, b], joinSegs [a, b, c]] := by
    rw [hsplit, accPaths_of_head_ne_nil a [b, c] ha]
    rfl
  rcases hin with ⟨T, hT, htag⟩
  constructor
  · refine ⟨?_, ?_, ?_⟩ <;>
      exact (mem_queryByTag_buildAdds ops TagSystem.empty _ D).2
        (Or.inl ⟨(D, T), hT, rfl, joinSegs [a, b, c], htag,
          by rw [hacc]; simp⟩)
  · intro hq
    rcases (mem_queryByTag_buildAdds ops TagSystem.empty _ D).1 hq with
      ⟨p, hp, hg, t, ht, hk⟩ | habs
    · refine ⟨p, hp, hg, t, ht, ?_⟩
      rcases accPaths_mem_wf t _ (hwf p hp t ht) hk with he | ⟨r, hr⟩
      · exact Or.inl he
      · exact Or.inr ⟨r, hr⟩
    · exact absurd habs (queryByTag_empty _ D)

/-- Concrete instance for C2: a single document `D` tagged `a.b.c`. -/
def exOps2 : List (Str × List Str) := [(strL "D", [strL "a.b.c"])]

/-- C2 witness: the theorem applied at a concrete one-document state. -/
theorem C2_exact_query_hierarchy_witness :
    ((∀ p ∈ exOps2, ∀ t ∈ p.2, ∀ s ∈ splitDots t, s ≠ []) ∧
      (∃ T, (strL "D", T) ∈ exOps2 ∧
        joinSegs [strL "a", strL "b", strL "c"] ∈ T)) ∧
    ((strL "D" ∈ queryByTag (buildAdds exOps2 TagSystem.empty)
        (joinSegs [strL "a"]) ∧
      strL "D" ∈ queryByTag (buildAdds exOps2 TagSystem.empty)
        (joinSegs [strL "a", strL "b"]) ∧
      strL "D" ∈ queryByTag (buildAdds exOps2 TagSystem.empty)
        (joinSegs [strL "a", strL "b", strL "c"])) ∧
     (strL "D" ∈ queryByTag (buildAdds exOps2 TagSystem.empty)
        (joinSegs [strL "a", strL "b", strL "c", strL "d"]) →
       ∃ p ∈ exOps2, p.1 = strL "D" ∧ ∃ t ∈ p.2,
         t = joinSegs [strL "a", strL "b", strL "c", strL "d"] ∨
           ∃ r, t = joinSegs [strL "a", strL "b", strL "c", strL "d"] ++
             '.' :: r)) :=
  ⟨⟨by decide, ⟨[strL "a.b.c"], by decide, by decide⟩⟩,
    C2_exact_query_hierarchy exOps2 (strL "D") (strL "a") (strL "b")
      (strL "c") (strL "d") (by decide) (by decide) (by decide) (by decide)
      (by decide) (by decide) (by decide) (by decide)
      ⟨[strL "a.b.c"], by decide, by decide⟩⟩

/-- C10: `addTags(f, tags)` indexes `f` under every non-empty prefix of every
tag: for a well-formed tag `s1.….sn` and any `1 ≤ i ≤ n`, the flat index
entry for `s1.….si` contains `f`, so `getAllTags` lists that ancestor prefix
(which no document need declare literally) and `getTagsForFile f` returns it
in addition to the declared tags. -/
theorem C10_prefix_indexing (ts : TagSystem) (f : Str) (tags : List Str)
    (segs : List Str) (i : Nat)
    (hnd : FlatKeysNodup ts.tagToFilesMap)
    (ht : joinSegs segs ∈ tags)
    (hne : segs ≠ []) (hsegs : ∀ s ∈ segs, s ≠ [] ∧ '.' ∉ s)
    (hi0 : 0 < i) (hil : i ≤ segs.length) :
    f ∈ queryByTag (addTags f tags ts) (joinSegs (segs.take i)) ∧
    joinSegs (segs.take i) ∈ getAllTags (addTags f tags ts) ∧
    joinSegs (segs.take i) ∈ getTagsForFile (addTags f tags ts) f := by
  obtain ⟨p, r, rfl⟩ : ∃ p r, segs = p :: r := by
    cases segs with
    | nil => exact absurd rfl hne
    | cons p r => exact ⟨p, r, rfl⟩
  set segs := p :: r with hsegsdef
  have hsplit : splitDots (joinSegs segs) = segs :=
    splitDots_joinSegs segs hne (fun s hs => (hsegs s hs).2)
  have hk : joinSegs (segs.take i) ∈ accPaths (splitDots (joinSegs segs)) := by
    rw [hsplit, hsegsdef,
      accPaths_of_head_ne_nil p r (hsegs p (List.mem_cons_self p r)).1]
    exact List.mem_map.2 ⟨segs.take i,
      mem_segPrefixes.2 ⟨i, hi0, hil, rfl⟩, rfl⟩
  have hcond : ∃ t ∈ tags, joinSegs (segs.take i) ∈ accPaths (splitDots t) :=
    ⟨joinSegs segs, ht, hk⟩
  have hflat := flatLookup_addTags f tags ts (joinSegs (segs.take i))
  rw [if_pos hcond] at hflat
  refine ⟨?_, ?_, ?_⟩
  · exact (mem_queryByTag_addTags f tags ts _ f).2 (Or.inl ⟨rfl, hcond⟩)
  · rw [mem_getAllTags_iff, hflat]
    rfl
  · rw [mem_getTagsForFile_iff _ _ _ (flatKeysNodup_addTags f tags ts hnd)]
    exact ⟨_, hflat, Finset.mem_insert_self f _⟩

/-- C10 witness: tag `a.b` for file `F` in the empty system, prefix `a`. -/
theorem C10_prefix_indexing_witness :
    (FlatKeysNodup TagSystem.empty.tagToFilesMap ∧
      joinSegs [strL "a", strL "b"] ∈ [strL "a.b"] ∧
      (∀ s ∈ [strL "a", strL "b"], s ≠ [] ∧ '.' ∉ s) ∧ 0 < 1 ∧
        1 ≤ [strL "a", strL "b"].length) ∧
    (strL "F" ∈ queryByTag (addTags (strL "F") [strL "a.b"] TagSystem.empty)
      (joinSegs ([strL "a", strL "b"].take 1)) ∧
     joinSegs ([strL "a", strL "b"].take 1) ∈
       getAllTags (addTags (strL "F") [strL "a.b"] TagSystem.empty) ∧
     joinSegs ([strL "a", strL "b"].take 1) ∈
       getTagsForFile (addTags (strL "F") [strL "a.b"] TagSystem.empty)
         (strL "F")) :=
  ⟨⟨by simp [FlatKeysNodup, TagSystem.empty], by decide, by decide, by decide,
      by decide⟩,
    C10_prefix_indexing TagSystem.empty (strL "F") [strL "a.b"]
      [strL "a", strL "b"] 1 (by simp [FlatKeysNodup, TagSystem.empty])
      (by decide) (by decide) (by decide) (by decide) (by decide)⟩

/-- C3: on every well-formed trie (children keys unique, as a JS `Map`
guarantees), `queryByWildcard` returns exactly the union of the
`owningDocuments` sets of the nodes whose path matches the pattern under the
`*` / `**` / literal semantics (`PatMatch`); the result is a set (each
document at most once, as the JS `Set` guarantees) and is empty — never an
error — when nothing matches. -/
theorem C3_wildcard_semantics (ts : TagSystem) (hwf : WFNode ts.root)
    (pattern : Str) :
    (∀ f, f ∈ queryByWildcard ts pattern ↔
      ∃ σ, PatMatch (splitDots pattern) σ ∧ f ∈ filesAt ts.root σ) ∧
    ((¬∃ f σ, PatMatch (splitDots pattern) σ ∧ f ∈ filesAt ts.root σ) →
      queryByWildcard ts pattern = ∅) := by
  refine ⟨fun f => mem_queryByWildcard ts hwf pattern f, fun hnone => ?_⟩
  rw [Finset.eq_empty_iff_forall_not_mem]
  intro f hf
  rcases (mem_queryByWildcard ts hwf pattern f).1 hf with ⟨σ, hm, hmem⟩
  exact hnone ⟨f, σ, hm, hmem⟩

/-- Concrete instance for C3: two documents under `backend.*`. -/
def exTS3 : TagSystem :=
  addTags (strL "/m/auth.md") [strL "backend.auth"]
    (addTags (strL "/m/db.md") [strL "backend.database.postgres"]
      TagSystem.empty)

theorem WFNode_exTS3 : WFNode exTS3.root :=
  WFNode_addTags _ _ _ (WFNode_addTags _ _ _ (by
    rw [TagSystem.empty, WFNode_iff]
    exact ⟨by simp [createNode], by simp [createNode]⟩))

/-- C3 witness: the characterization applied to a concrete two-document
trie and the pattern `backend.*`. -/
theorem C3_wildcard_semantics_witness :
    WFNode exTS3.root ∧
    ((∀ f, f ∈ queryByWildcard exTS3 (strL "backend.*") ↔
       ∃ σ, PatMatch (splitDots (strL "backend.*")) σ ∧
         f ∈ filesAt exTS3.root σ) ∧
     ((¬∃ f σ, PatMatch (splitDots (strL "backend.*")) σ ∧
        f ∈ filesAt exTS3.root σ) →
       queryByWildcard exTS3 (strL "backend.*") = ∅)) :=
  ⟨WFNode_exTS3, C3_wildcard_semantics exTS3 WFNode_exTS3 (strL "backend.*")⟩

/-- Concrete state for the C9 counterexample: `D` already carries tag `a`. -/
def exTS9 : TagSystem := addTags (strL "D") [strL "a"] TagSystem.empty

/-- C9 counterexample: `add(D, T); remove(D, T)` is **not** an observational
no-op on every trie state.  If `D` already carries tag `a`, adding and then
removing `["a"]` erases `D`'s pre-existing membership: `queryExact "a"`
changes from `{D}` to `{}`. -/
theorem C9_counterexample :
    queryByTag (removeTags (strL "D") [strL "a"]
        (addTags (strL "D") [strL "a"] exTS9)) (strL "a") ≠
      queryByTag exTS9 (strL "a") := by
  decide

/-- C9 (amended): on a well-formed trie state in which document `D` occurs
nowhere (in no trie node and in no flat-map entry — in particular any state
in which `D` was never added, which is the reading "before `add`"),
`add(D, T)` followed by `remove(D, T)` is observationally a no-op:
`getAllTags` holds the same tag set, and every exact and wildcard query
returns the same document set (empty placeholder nodes may remain). -/
theorem C9_add_remove_inverse (ts : TagSystem) (D : Str) (T : List Str)
    (hwf : WFNode ts.root) (hnd : FlatKeysNodup ts.tagToFilesMap)
    (hval : ∀ p ∈ ts.tagToFilesMap, p.2 ≠ (∅ : Finset Str))
    (hfreshT : ∀ σ, D ∉ filesAt ts.root σ)
    (hfreshF : ∀ k s, flatLookup k ts.tagToFilesMap = some s → D ∉ s) :
    (∀ k, k ∈ getAllTags (removeTags D T (addTags D T ts)) ↔
      k ∈ getAllTags ts) ∧
    (∀ q, queryByTag (removeTags D T (addTags D T ts)) q =
      queryByTag ts q) ∧
    (∀ pat, queryByWildcard (removeTags D T (addTags D T ts)) pat =
      queryByWildcard ts pat) := by
  have hexA : ∀ t ∈ T, nodeExists (addTags D T ts).root (splitDots t) :=
    fun t ht => (nodeExists_addTags D T ts _).2
      (Or.inl ⟨t, ht, self_mem_segPrefixes (splitSeg_ne_nil '.' t)⟩)
  have hndA : FlatKeysNodup (addTags D T ts).tagToFilesMap :=
    flatKeysNodup_addTags D T ts hnd
  -- pointwise equality of the flat map
  have hflat : ∀ k, flatLookup k
      (removeTags D T (addTags D T ts)).tagToFilesMap =
      flatLookup k ts.tagToFilesMap := by
    intro k
    rw [flatLookup_removeTags D T _ k hndA hexA, flatLookup_addTags]
    by_cases hcond : ∃ t ∈ T, k ∈ accPaths (splitDots t)
    · rw [if_pos hcond, if_pos hcond]
      cases hold : flatLookup k ts.tagToFilesMap with
      | none =>
        simp only [Option.getD_none, removeOutcome]
        rw [if_pos (by simp)]
      | some s =>
        have hDs : D ∉ s := hfreshF k s hold
        have hsne : s ≠ ∅ := hval (k, s) (flatLookup_mem hold)
        simp only [Option.getD_some, removeOutcome]
        rw [Finset.erase_insert hDs, if_neg hsne]
    · rw [if_neg hcond, if_neg hcond]
  -- pointwise equality of every node's document set
  have hfiles : ∀ σ, filesAt (removeTags D T (addTags D T ts)).root σ =
      filesAt ts.root σ := by
    intro σ
    rw [filesAt_removeTags D T _ hexA, filesAt_addTags]
    by_cases hcond : ∃ t ∈ T, σ ∈ segPrefixes (splitDots t)
    · rw [if_pos hcond, if_pos hcond, Finset.erase_insert (hfreshT σ)]
    · rw [if_neg hcond, if_neg hcond]
  refine ⟨?_, ?_, ?_⟩
  · intro k
    rw [mem_getAllTags_iff, mem_getAllTags_iff, hflat]
  · intro q
    rw [queryByTag, queryByTag, hflat]
  · intro pat
    have hwfR : WFNode (removeTags D T (addTags D T ts)).root :=
      WFNode_removeTags D T _ (WFNode_addTags D T ts hwf)
    apply Finset.ext
    intro f
    rw [mem_queryByWildcard _ hwfR, mem_queryByWildcard _ hwf]
    constructor
    · rintro ⟨σ, hm, hmem⟩
      exact ⟨σ, hm, by rwa [hfiles σ] at hmem⟩
    · rintro ⟨σ, hm, hmem⟩
      exact ⟨σ, hm, by rwa [hfiles σ]⟩

/-- Concrete state for the C9 amended witness: a state carrying an unrelated
document `E` with tag `x`, and a fresh document `D`. -/
def exTS9b : TagSystem := addTags (strL "E") [strL "x"] TagSystem.empty

/-- C9 witness: the amended add/remove inverse applied at a concrete state
with `D` fresh. -/
theorem C9_add_remove_inverse_witness :
    (WFNode exTS9b.root ∧ FlatKeysNodup exTS9b.tagToFilesMap ∧
      (∀ p ∈ exTS9b.tagToFilesMap, p.2 ≠ (∅ : Finset Str)) ∧
      (∀ k s, flatLookup k exTS9b.tagToFilesMap = some s → strL "D" ∉ s)) ∧
    ((∀ k, k ∈ getAllTags (removeTags (strL "D") [strL "a.b"]
        (addTags (strL "D") [strL "a.b"] exTS9b)) ↔
      k ∈ getAllTags exTS9b) ∧
     (∀ q, queryByTag (removeTags (strL "D") [strL "a.b"]
        (addTags (strL "D") [strL "a.b"] exTS9b)) q =
      queryByTag exTS9b q) ∧
     (∀ pat, queryByWildcard (removeTags (strL "D") [strL "a.b"]
        (addTags (strL "D") [strL "a.b"] exTS9b)) pat =
      queryByWildcard exTS9b pat)) := by
  have hwf : WFNode exTS9b.root :=
    WFNode_addTags _ _ _ (by
      rw [TagSystem.empty, WFNode_iff]
      exact ⟨by simp [createNode], by simp [createNode]⟩)
  have hnd : FlatKeysNodup exTS9b.tagToFilesMap := by
    rw [show exTS9b.tagToFilesMap =
      [(strL "x", ({strL "E"} : Finset Str))] from by decide]
    simp [FlatKeysNodup]
  have hval : ∀ p ∈ exTS9b.tagToFilesMap, p.2 ≠ (∅ : Finset Str) := by decide
  have hfreshF : ∀ k s, flatLookup k exTS9b.tagToFilesMap = some s →
      strL "D" ∉ s := by
    intro k s hs
    rw [show exTS9b.tagToFilesMap =
      [(strL "x", ({strL "E"} : Finset Str))] from by decide] at hs
    simp only [flatLookup] at hs
    by_cases hk : strL "x" = k
    · rw [if_pos hk] at hs
      cases hs
      decide
    · rw [if_neg hk] at hs
      cases hs
  have hfreshT : ∀ σ, strL "D" ∉ filesAt exTS9b.root σ := by
    intro σ
    rw [show exTS9b = addTags (strL "E") [strL "x"] TagSystem.empty from rfl]
    rw [filesAt_addTags]
    have hempty : filesAt TagSystem.empty.root σ = ∅ := by
      cases σ with
      | nil => rfl
      | cons s σ' =>
        rw [filesAt_cons]
        rfl
    by_cases hcond : ∃ t ∈ [strL "x"], σ ∈ segPrefixes (splitDots t)
    · rw [if_pos hcond, hempty]
      decide
    · rw [if_neg hcond, hempty]
      exact Finset.not_mem_empty _
  exact ⟨⟨hwf, hnd, hval, hfreshF⟩,
    C9_add_remove_inverse exTS9b (strL "D") [strL "a.b"] hwf hnd hval
      hfreshT hfreshF⟩

/-! ## Frontmatter parser (`MemoryFileParser.ts`)

The YAML library (`js-yaml`) is external to the repository: it is modelled as
a parameter `yload : Str → Except Str Yaml` producing a structured value.
JavaScript values relevant to the validator are modelled by `Yaml`;
`falsy` mirrors JS truthiness for them. -/

inductive Yaml : Type where
  | nil
  | bool (b : Bool)
  | num (n : Int)
  | str (s : Str)
  | seq (items : List Yaml)
  | obj (fields : List (Str × Yaml))

instance : Inhabited Yaml := ⟨.nil⟩

/-- JS falsiness of a YAML value (`!v`): `null`/`undefined`, `false`, `0`,
and the empty string are falsy; arrays and objects are always truthy. -/
def falsy : Yaml → Bool
  | .nil => true
  | .bool b => !b
  | .num n => n == 0
  | .str s => s.isEmpty
  | .seq _ => false
  | .obj _ => false

/-- JS property access `obj[name]` on the parsed frontmatter object. -/
def getField (fields : List (Str × Yaml)) (name : Str) : Option Yaml :=
  match fields with
  | [] => none
  | (k, v) :: rest => if k = name then some v else getField rest name

/-- `content.split('\n')`. -/
def splitLines (s : Str) : List Str := splitSeg '\n' s

/-- ASCII whitespace removed by `String.prototype.trim()` (the JS function
also strips rarer Unicode spaces, irrelevant to the delimiters considered). -/
def isWhite (c : Char) : Bool :=
  c = ' ' || c = '\t' || c = '\r' || c = '\n' || c = '\x0b' || c = '\x0c'

/-- `line.trim()`. -/
def trimStr (s : Str) : Str :=
  ((s.dropWhile isWhite).reverse.dropWhile isWhite).reverse

/-- `lines.slice(a, b).join('\n')` / `lines.slice(a).join('\n')`. -/
def joinNL : List Str → Str
  | [] => []
  | [s] => s
  | s :: ss => s ++ '\n' :: joinNL ss

inductive StructErr : Type where
  | noOpening
  | noClosing
  | yamlFailed (msg : Str)
  | emptyYaml
  | notObject
deriving DecidableEq

inductive ValidErr : Type where
  | missingTitle
  | titleNotString
  | missingTags
  | tagsNotArray
  | tagsEmpty
  | tagNotString
deriving DecidableEq

/-- `FrontmatterParseError` / `FrontmatterValidationError`. -/
inductive ParseErr : Type where
  | structural (e : StructErr)
  | validation (e : ValidErr)
deriving DecidableEq

/-- Search `lines` for the first index (counting from `i`) whose trimmed text
is `---` — the loop of `extractFrontmatter`. -/
def findClosingFrom (ls : List Str) (i : Nat) : Option Nat :=
  match ls with
  | [] => none
  | l :: rest =>
    if trimStr l = strL "---" then some i else findClosingFrom rest (i + 1)

/-- `MemoryFileParser.extractFrontmatter`: returns
`(yamlContent, markdownContent)`.  Note `lines[0]` is always defined because
`split('\n')` never returns an empty array. -/
def extractFrontmatter (content : Str) : Except StructErr (Str × Str) :=
  let lines := splitLines content
  if trimStr lines.headI ≠ strL "---" then .error .noOpening
  else
    match findClosingFrom lines.tail 1 with
    | none => .error .noClosing
    | some idx =>
      .ok (joinNL ((lines.drop 1).take (idx - 1)),
        trimStr (joinNL (lines.drop (idx + 1))))

/-- `MemoryFileParser.parseFrontmatter`: `yaml.load` then the
null/undefined and object-shape checks. -/
def parseFrontmatter (yload : Str → Except Str Yaml) (yc : Str) :
    Except StructErr (List (Str × Yaml)) :=
  match yload yc with
  | .error m => .error (.yamlFailed m)
  | .ok v =>
    match v with
    | .nil => .error .emptyYaml
    | .obj fields => .ok fields
    | _ => .error .notObject

/-- The typed record carried by the cache after validation succeeds
(`MemoryFileFrontmatter` keeps the raw fields opaquely). -/
structure MemoryFileFrontmatter : Type where
  title : Str
  tags : List Str
  fields : List (Str × Yaml)

/-- All elements are YAML strings (the per-tag loop of the validator). -/
def asStrings : List Yaml → Option (List Str)
  | [] => some []
  | .str s :: rest => (asStrings rest).map (s :: ·)
  | _ :: _ => none

/-- `MemoryFileParser.validateFrontmatter`, returning the typed view.
The checks and their order mirror the source: `!title` (JS falsiness, so a
missing, null, `false`, `0` or empty-string title reports "missing"), title
not a string, `!tags`, tags not an array, empty array, non-string element. -/
def validateFrontmatter (fm : List (Str × Yaml)) :
    Except ValidErr MemoryFileFrontmatter :=
  match getField fm (strL "title") with
  | none => .error .missingTitle
  | some tv =>
    if falsy tv then .error .missingTitle
    else
      match tv with
      | .str ts =>
        (match getField fm (strL "tags") with
        | none => .error .missingTags
        | some gv =>
          if falsy gv then .error .missingTags
          else
            match gv with
            | .seq items =>
              if items.length = 0 then .error .tagsEmpty
              else
                match asStrings items with
                | none => .error .tagNotString
                | some tags => .ok ⟨ts, tags, fm⟩
            | _ => .error .tagsNotArray)
      | _ => .error .titleNotString

/-- `ParsedMemoryFile`. -/
structure ParsedMemoryFile : Type where
  frontmatter : MemoryFileFrontmatter
  content : Str

/-- `MemoryFileParser.parse`: extract, load, validate — in that order. -/
def MemoryFileParser_parse (yload : Str → Except Str Yaml) (content : Str) :
    Except ParseErr ParsedMemoryFile :=
  match extractFrontmatter content with
  | .error e => .error (.structural e)
  | .ok (yc, md) =>
    match parseFrontmatter yload yc with
    | .error e => .error (.structural e)
    | .ok fm =>
      match validateFrontmatter fm with
      | .error e => .error (.validation e)
      | .ok front => .ok ⟨front, md⟩

theorem asStrings_length (items : List Yaml) (tags : List Str)
    (h : asStrings items = some tags) : items.length = tags.length := by
  induction items generalizing tags with
  | nil => cases h; rfl
  | cons y ys ih =>
    cases y with
    | str s =>
      simp only [asStrings] at h
      cases hys : asStrings ys with
      | none => rw [hys] at h; cases h
      | some ts' =>
        rw [hys] at h
        cases h
        simp [ih ts' hys]
    | nil => cases h
    | bool b => cases h
    | num n => cases h
    | seq l => cases h
    | obj l => cases h

/-- Inversion of a successful validation: the record's components come from
the `title` and `tags` fields exactly as the checks demand. -/
theorem validateFrontmatter_ok_inv (fm : List (Str × Yaml))
    (front : MemoryFileFrontmatter)
    (h : validateFrontmatter fm = .ok front) :
    ∃ items, getField fm (strL "title") = some (.str front.title) ∧
      getField fm (strL "tags") = some (.seq items) ∧
      asStrings items = some front.tags ∧ items.length ≠ 0 ∧
      front.fields = fm := by
  unfold validateFrontmatter at h
  repeat' split at h
  all_goals cases h
  exact ⟨_, by assumption, by assumption, by assumption, by assumption, rfl⟩

theorem validateFrontmatter_ok_tags_ne_nil (fm : List (Str × Yaml))
    (front : MemoryFileFrontmatter)
    (h : validateFrontmatter fm = .ok front) : front.tags ≠ [] := by
  rcases validateFrontmatter_ok_inv fm front h with
    ⟨items, -, -, hstr, hlen, -⟩
  intro hc
  have := asStrings_length items front.tags hstr
  rw [hc] at this
  simp only [List.length_nil] at this
  exact hlen this

theorem parse_ok_tags_ne_nil (yload : Str → Except Str Yaml) (content : Str)
    (r : ParsedMemoryFile)
    (h : MemoryFileParser_parse yload content = .ok r) :
    r.frontmatter.tags ≠ [] := by
  unfold MemoryFileParser_parse at h
  split at h
  · cases h
  · split at h
    · cases h
    · split at h
      · cases h
      · next front hval =>
        cases h
        exact validateFrontmatter_ok_tags_ne_nil _ front hval

theorem findClosingFrom_eq_none_iff (ls : List Str) (i : Nat) :
    findClosingFrom ls i = none ↔ ∀ l ∈ ls, trimStr l ≠ strL "---" := by
  induction ls generalizing i with
  | nil => simp [findClosingFrom]
  | cons l rest ih =>
    simp only [findClosingFrom]
    by_cases hl : trimStr l = strL "---"
    · rw [if_pos hl]
      simp [hl]
    · rw [if_neg hl]
      rw [ih (i + 1)]
      constructor
      · intro hall l' hl'
        rcases List.mem_cons.1 hl' with rfl | hl'
        exacts [hl, hall l' hl']
      · intro hall l' hl'
        exact hall l' (List.mem_cons_of_mem _ hl')

theorem extractFrontmatter_noOpening_iff (content : Str) :
    extractFrontmatter content = .error .noOpening ↔
      trimStr (splitLines content).headI ≠ strL "---" := by
  unfold extractFrontmatter
  by_cases h : trimStr (splitLines content).headI = strL "---"
  · rw [if_neg (by simpa using h)]
    cases hf : findClosingFrom (splitLines content).tail 1 <;> simp [h]
  · rw [if_pos (by simpa using h)]
    simp [h]

theorem extractFrontmatter_noClosing_iff (content : Str) :
    extractFrontmatter content = .error .noClosing ↔
      trimStr (splitLines content).headI = strL "---" ∧
        ∀ l ∈ (splitLines content).tail, trimStr l ≠ strL "---" := by
  unfold extractFrontmatter
  by_cases h : trimStr (splitLines content).headI = strL "---"
  · rw [if_neg (by simpa using h)]
    cases hf : findClosingFrom (splitLines content).tail 1 with
    | none =>
      simp only [h, true_and]
      rw [← findClosingFrom_eq_none_iff _ 1, hf]
      simp
    | some idx =>
      simp only [h, true_and]
      rw [← findClosingFrom_eq_none_iff _ 1, hf]
      simp
  · rw [if_pos (by simpa using h)]
    simp [h]

theorem extractFrontmatter_ok_inv (content : Str) (yc md : Str)
    (h : extractFrontmatter content = .ok (yc, md)) :
    trimStr (splitLines content).headI = strL "---" ∧
      ∃ idx, findClosingFrom (splitLines content).tail 1 = some idx ∧
        yc = joinNL (((splitLines content).drop 1).take (idx - 1)) ∧
        md = trimStr (joinNL ((splitLines content).drop (idx + 1))) := by
  unfold extractFrontmatter at h
  by_cases hop : trimStr (splitLines content).headI = strL "---"
  · rw [if_neg (by simpa using hop)] at h
    cases hf : findClosingFrom (splitLines content).tail 1 with
    | none => rw [hf] at h; cases h
    | some idx =>
      rw [hf] at h
      cases h
      exact ⟨hop, idx, rfl, rfl, rfl⟩
  · rw [if_pos (by simpa using hop)] at h
    cases h

theorem parseFrontmatter_yamlFailed_iff (yload : Str → Except Str Yaml)
    (yc m : Str) :
    parseFrontmatter yload yc = .error (.yamlFailed m) ↔
      yload yc = .error m := by
  unfold parseFrontmatter
  cases hy : yload yc with
  | error m' => simp
  | ok v => cases v <;> simp

theorem parseFrontmatter_emptyYaml_iff (yload : Str → Except Str Yaml)
    (yc : Str) :
    parseFrontmatter yload yc = .error .emptyYaml ↔
      yload yc = .ok .nil := by
  unfold parseFrontmatter
  cases hy : yload yc with
  | error m' => simp
  | ok v => cases v <;> simp

theorem parseFrontmatter_notObject_iff (yload : Str → Except Str Yaml)
    (yc : Str) :
    parseFrontmatter yload yc = .error .notObject ↔
      ∃ v, yload yc = .ok v ∧ v ≠ .nil ∧ ∀ fs, v ≠ .obj fs := by
  unfold parseFrontmatter
  cases hy : yload yc with
  | error m' => simp
  | ok v =>
    cases v <;> simp

theorem parseFrontmatter_ok_iff (yload : Str → Except Str Yaml) (yc : Str)
    (fm : List (Str × Yaml)) :
    parseFrontmatter yload yc = .ok fm ↔ yload yc = .ok (.obj fm) := by
  unfold parseFrontmatter
  cases hy : yload yc with
  | error m' => simp
  | ok v => cases v <;> simp

theorem validateFrontmatter_missingTitle_inv (fm : List (Str × Yaml))
    (h : validateFrontmatter fm = .error .missingTitle) :
    getField fm (strL "title") = none ∨
      ∃ tv, getField fm (strL "title") = some tv ∧ falsy tv = true := by
  unfold validateFrontmatter at h
  repeat' split at h
  all_goals cases h
  · exact Or.inl (by assumption)
  · exact Or.inr ⟨_, by assumption, by assumption⟩

theorem validateFrontmatter_titleNotString_inv (fm : List (Str × Yaml))
    (h : validateFrontmatter fm = .error .titleNotString) :
    ∃ tv, getField fm (strL "title") = some tv ∧ falsy tv = false ∧
      ∀ s, tv ≠ .str s := by
  unfold validateFrontmatter at h
  repeat' split at h
  all_goals cases h
  all_goals exact ⟨_, by assumption,
    by simp_all, by intro s hc; simp_all⟩

theorem validateFrontmatter_missingTags_inv (fm : List (Str × Yaml))
    (h : validateFrontmatter fm = .error .missingTags) :
    (∃ ts, getField fm (strL "title") = some (.str ts) ∧
      falsy (.str ts) = false) ∧
    (getField fm (strL "tags") = none ∨
      ∃ gv, getField fm (strL "tags") = some gv ∧ falsy gv = true) := by
  unfold validateFrontmatter at h
  repeat' split at h
  all_goals cases h
  · exact ⟨⟨_, by assumption, by simp_all⟩, Or.inl (by assumption)⟩
  · exact ⟨⟨_, by assumption, by simp_all⟩,
      Or.inr ⟨_, by assumption, by assumption⟩⟩

theorem validateFrontmatter_tagsNotArray_inv (fm : List (Str × Yaml))
    (h : validateFrontmatter fm = .error .tagsNotArray) :
    ∃ gv, getField fm (strL "tags") = some gv ∧ falsy gv = false ∧
      ∀ its, gv ≠ .seq its := by
  unfold validateFrontmatter at h
  repeat' split at h
  all_goals cases h
  all_goals exact ⟨_, by assumption, by simp_all, by intro its hc; simp_all⟩

theorem validateFrontmatter_tagsEmpty_inv (fm : List (Str × Yaml))
    (h : validateFrontmatter fm = .error .tagsEmpty) :
    ∃ its, getField fm (strL "tags") = some (.seq its) ∧ its.length = 0 := by
  unfold validateFrontmatter at h
  repeat' split at h
  all_goals cases h
  exact ⟨_, by assumption, by simp_all⟩

theorem validateFrontmatter_tagNotString_inv (fm : List (Str × Yaml))
    (h : validateFrontmatter fm = .error .tagNotString) :
    ∃ its, getField fm (strL "tags") = some (.seq its) ∧
      asStrings its = none := by
  unfold validateFrontmatter at h
  repeat' split at h
  all_goals cases h
  exact ⟨_, by assumption, by assumption⟩

theorem extractFrontmatter_error_inv (content : Str) (e : StructErr)
    (h : extractFrontmatter content = .error e) :
    e = .noOpening ∨ e = .noClosing := by
  unfold extractFrontmatter at h
  by_cases hop : trimStr (splitLines content).headI = strL "---"
  · rw [if_neg (by simpa using hop)] at h
    cases hf : findClosingFrom (splitLines content).tail 1 with
    | none =>
      rw [hf] at h
      cases h
      exact Or.inr rfl
    | some idx =>
      rw [hf] at h
      cases h
  · rw [if_pos (by simpa using hop)] at h
    cases h
    exact Or.inl rfl

theorem parseFrontmatter_error_inv (yload : Str → Except Str Yaml) (yc : Str)
    (e : StructErr) (h : parseFrontmatter yload yc = .error e) :
    (∃ m, e = .yamlFailed m) ∨ e = .emptyYaml ∨ e = .notObject := by
  unfold parseFrontmatter at h
  repeat' split at h
  all_goals cases h
  · exact Or.inl ⟨_, rfl⟩
  · exact Or.inr (Or.inl rfl)
  · exact Or.inr (Or.inr rfl)

/-- C7: `parse` either succeeds, or fails with exactly one of the two error
kinds; a structural error arises exactly from the listed structural causes
(first line not `---`, no closing `---`, YAML load failure, empty YAML
frontmatter, frontmatter not an object), a validation error arises only
after the structural phase fully succeeded and exactly from the listed
field checks (`missing` follows JS falsiness, exactly as the source tests
`!frontmatter.title` / `!frontmatter.tags`); the embedding of `parse` is a
pure function of its input. -/
theorem C7_parse_error_taxonomy (yload : Str → Except Str Yaml)
    (content : Str) :
    (∀ r, MemoryFileParser_parse yload content = .ok r →
      ∃ yc md fm, extractFrontmatter content = .ok (yc, md) ∧
        parseFrontmatter yload yc = .ok fm ∧
        validateFrontmatter fm = .ok r.frontmatter ∧
        r.content = md ∧ r.frontmatter.tags ≠ []) ∧
    (∀ e, MemoryFileParser_parse yload content = .error (.structural e) →
      (e = .noOpening ∧
          trimStr (splitLines content).headI ≠ strL "---") ∨
      (e = .noClosing ∧ trimStr (splitLines content).headI = strL "---" ∧
          ∀ l ∈ (splitLines content).tail, trimStr l ≠ strL "---") ∨
      (∃ yc md, extractFrontmatter content = .ok (yc, md) ∧
        ((∃ m, e = .yamlFailed m ∧ yload yc = .error m) ∨
         (e = .emptyYaml ∧ yload yc = .ok .nil) ∨
         (e = .notObject ∧ ∃ v, yload yc = .ok v ∧ v ≠ .nil ∧
            ∀ fs, v ≠ .obj fs)))) ∧
    (∀ e, MemoryFileParser_parse yload content = .error (.validation e) →
      ∃ yc md fm, extractFrontmatter content = .ok (yc, md) ∧
        parseFrontmatter yload yc = .ok fm ∧
        ((e = .missingTitle ∧ (getField fm (strL "title") = none ∨
            ∃ tv, getField fm (strL "title") = some tv ∧ falsy tv = true)) ∨
         (e = .titleNotString ∧ ∃ tv,
            getField fm (strL "title") = some tv ∧ falsy tv = false ∧
            ∀ s, tv ≠ .str s) ∨
         (e = .missingTags ∧ (getField fm (strL "tags") = none ∨
            ∃ gv, getField fm (strL "tags") = some gv ∧ falsy gv = true)) ∨
         (e = .tagsNotArray ∧ ∃ gv,
            getField fm (strL "tags") = some gv ∧ falsy gv = false ∧
            ∀ its, gv ≠ .seq its) ∨
         (e = .tagsEmpty ∧ ∃ its,
            getField fm (strL "tags") = some (.seq its) ∧ its.length = 0) ∨
         (e = .tagNotString ∧ ∃ its,
            getField fm (strL "tags") = some (.seq its) ∧
            asStrings its = none))) := by
  refine ⟨?_, ?_, ?_⟩
  · intro r h
    unfold MemoryFileParser_parse at h
    repeat' split at h
    all_goals cases h
    refine ⟨_, _, _, by assumption, by assumption, by assumption, rfl, ?_⟩
    exact validateFrontmatter_ok_tags_ne_nil _ _ (by assumption)
  · intro e h
    unfold MemoryFileParser_parse at h
    repeat' split at h
    all_goals cases h
    all_goals first
      | (rename_i heqE
         rcases extractFrontmatter_error_inv content e heqE with rfl | rfl
         · exact Or.inl ⟨rfl,
             (extractFrontmatter_noOpening_iff content).1 heqE⟩
         · rcases (extractFrontmatter_noClosing_iff content).1 heqE
             with ⟨h1, h2⟩
           exact Or.inr (Or.inl ⟨rfl, h1, h2⟩))
      | (rename_i heqP
         rcases parseFrontmatter_error_inv yload _ e heqP
           with ⟨m, rfl⟩ | rfl | rfl
         · exact Or.inr (Or.inr ⟨_, _, by assumption, Or.inl ⟨m, rfl,
             (parseFrontmatter_yamlFailed_iff yload _ m).1 heqP⟩⟩)
         · exact Or.inr (Or.inr ⟨_, _, by assumption, Or.inr (Or.inl ⟨rfl,
             (parseFrontmatter_emptyYaml_iff yload _).1 heqP⟩)⟩)
         · exact Or.inr (Or.inr ⟨_, _, by assumption, Or.inr (Or.inr ⟨rfl,
             (parseFrontmatter_notObject_iff yload _).1 heqP⟩)⟩))
  · intro e h
    unfold MemoryFileParser_parse at h
    repeat' split at h
    all_goals cases h
    rename_i heqV
    refine ⟨_, _, _, by assumption, by assumption, ?_⟩
    cases e with
    | missingTitle =>
      exact Or.inl ⟨rfl, validateFrontmatter_missingTitle_inv _ heqV⟩
    | titleNotString =>
      exact Or.inr (Or.inl ⟨rfl,
        validateFrontmatter_titleNotString_inv _ heqV⟩)
    | missingTags =>
      exact Or.inr (Or.inr (Or.inl ⟨rfl,
        (validateFrontmatter_missingTags_inv _ heqV).2⟩))
    | tagsNotArray =>
      exact Or.inr (Or.inr (Or.inr (Or.inl ⟨rfl,
        validateFrontmatter_tagsNotArray_inv _ heqV⟩)))
    | tagsEmpty =>
      exact Or.inr (Or.inr (Or.inr (Or.inr (Or.inl ⟨rfl,
        validateFrontmatter_tagsEmpty_inv _ heqV⟩))))
    | tagNotString =>
      exact Or.inr (Or.inr (Or.inr (Or.inr (Or.inr ⟨rfl,
        validateFrontmatter_tagNotString_inv _ heqV⟩))))

/-! ## Memory index and synchronization service
(`MemoryIndex.ts`, `MemorySynchronizationService.ts`)

File reads are external: each event carries the read outcome
(`read : Option Str`, `none` = the read threw).  `lastModified : Date` is
wall-clock time, not observable by any property considered, and is omitted
from the entry model. -/

/-- `MemoryIndexEntry` (without the `lastModified` timestamp). -/
structure MemoryIndexEntry : Type where
  filePath : Str
  frontmatter : MemoryFileFrontmatter
  content : Str

instance : Inhabited MemoryIndexEntry := ⟨⟨[], ⟨[], [], []⟩, []⟩⟩

/-- The `MemoryIndex` map, with JS `Map.set` semantics. -/
abbrev MemoryIndex := List (Str × MemoryIndexEntry)

def mIndexAdd (p : Str) (e : MemoryIndexEntry) : MemoryIndex → MemoryIndex
  | [] => [(p, e)]
  | (p', e') :: rest =>
    if p' = p then (p, e) :: rest else (p', e') :: mIndexAdd p e rest

def mIndexGet (p : Str) : MemoryIndex → Option MemoryIndexEntry
  | [] => none
  | (p', e') :: rest => if p' = p then some e' else mIndexGet p rest

def mIndexRemove (p : Str) : MemoryIndex → MemoryIndex
  | [] => []
  | (p', e') :: rest =>
    if p' = p then rest else (p', e') :: mIndexRemove p rest

theorem mIndexGet_mIndexAdd (p q : Str) (e : MemoryIndexEntry)
    (m : MemoryIndex) :
    mIndexGet q (mIndexAdd p e m) =
      if p = q then some e else mIndexGet q m := by
  induction m with
  | nil =>
    simp only [mIndexAdd, mIndexGet]
  | cons hd tl ih =>
    obtain ⟨p', e'⟩ := hd
    by_cases hp : p' = p
    · subst hp
      simp only [mIndexAdd, if_pos rfl, mIndexGet]
      by_cases hq : p' = q
      · rw [if_pos hq, if_pos hq]
      · rw [if_neg hq, if_neg hq, if_neg hq]
    · simp only [mIndexAdd, if_neg hp, mIndexGet]
      by_cases hq : p' = q
      · subst hq
        rw [if_pos rfl, if_neg (fun hc => hp hc.symm), if_pos rfl]
      · rw [if_neg hq, if_neg hq, ih]

/-- the state of `MemorySynchronizationService` + its two collaborators. -/
structure SyncState : Type where
  memoryIndex : MemoryIndex
  tagSystem : TagSystem

def SyncState.empty : SyncState := ⟨[], TagSystem.empty⟩

/-- The shared install block of `handleFileCreateOrChange` / `refreshFile`:
remove the old tags when the path is already indexed, then store the new
entry and add the new tags (the two TS methods duplicate this code
verbatim). -/
def installParsed (path : Str) (parsed : ParsedMemoryFile)
    (st : SyncState) : SyncState :=
  let ts1 := match mIndexGet path st.memoryIndex with
    | some e => removeTags path e.frontmatter.tags st.tagSystem
    | none => st.tagSystem
  { memoryIndex :=
      mIndexAdd path ⟨path, parsed.frontmatter, parsed.content⟩
        st.memoryIndex,
    tagSystem := addTags path parsed.frontmatter.tags ts1 }

/-- The shared eviction block of `handleFileDelete` / `refreshFile`. -/
def evictPath (path : Str) (st : SyncState) : SyncState :=
  match mIndexGet path st.memoryIndex with
  | some e =>
    { memoryIndex := mIndexRemove path st.memoryIndex,
      tagSystem := removeTags path e.frontmatter.tags st.tagSystem }
  | none => st

/-- `handleFileCreateOrChange`: read (may fail), parse (may fail), install.
Any failure is caught: the error is reported to the error reporter (an
external sink) and the state is left unchanged. -/
def handleFileCreateOrChange (yload : Str → Except Str Yaml) (path : Str)
    (read : Option Str) (st : SyncState) : SyncState :=
  match read with
  | none => st
  | some content =>
    match MemoryFileParser_parse yload content with
    | .error _ => st
    | .ok parsed => installParsed path parsed st

/-- `handleFileDelete`. -/
def handleFileDelete (path : Str) (st : SyncState) : SyncState :=
  evictPath path st

/-- `refreshFile`: the inner `try` wraps read **and** parse, so its `catch`
(which evicts) fires on read failures and on parse/validation failures
alike. -/
def refreshFile (yload : Str → Except Str Yaml) (path : Str)
    (read : Option Str) (st : SyncState) : SyncState :=
  match read with
  | none => evictPath path st
  | some content =>
    match MemoryFileParser_parse yload content with
    | .error _ => evictPath path st
    | .ok parsed => installParsed path parsed st

/-- `synchronizeBatch`: `handleFileCreateOrChange` for each file; the JS
`Promise.allSettled` interleaving serializes the synchronous mutation blocks
in completion order, modelled as a fold (quantified over arbitrary item
lists, hence over arbitrary completion orders). -/
def synchronizeBatch (yload : Str → Except Str Yaml)
    (items : List (Str × Option Str)) (st : SyncState) : SyncState :=
  items.foldl (fun st it => handleFileCreateOrChange yload it.1 it.2 st) st

/-- One synchronization-service entry point with its read outcome(s). -/
inductive SyncEvent : Type where
  | createOrChange (path : Str) (read : Option Str)
  | delete (path : Str)
  | refresh (path : Str) (read : Option Str)
  | batch (items : List (Str × Option Str))
  | clearAll

/-- `MemorySynchronizationService.clear` empties both structures. -/
def applyEvent (yload : Str → Except Str Yaml) (st : SyncState) :
    SyncEvent → SyncState
  | .createOrChange path read => handleFileCreateOrChange yload path read st
  | .delete path => handleFileDelete path st
  | .refresh path read => refreshFile yload path read st
  | .batch items => synchronizeBatch yload items st
  | .clearAll => SyncState.empty

def applyEvents (yload : Str → Except Str Yaml) (events : List SyncEvent) :
    SyncState :=
  events.foldl (applyEvent yload) SyncState.empty

/-! ### Cache/trie consistency invariant -/

def IndexKeysNodup (m : MemoryIndex) : Prop := (m.map Prod.fst).Nodup

theorem mem_keys_mIndexAdd (p : Str) (e : MemoryIndexEntry) (q : Str)
    (m : MemoryIndex) :
    q ∈ (mIndexAdd p e m).map Prod.fst ↔ q = p ∨ q ∈ m.map Prod.fst := by
  induction m with
  | nil => simp [mIndexAdd]
  | cons hd tl ih =>
    obtain ⟨p', e'⟩ := hd
    by_cases hp : p' = p
    · subst hp
      simp [mIndexAdd, or_comm, or_left_comm]
    · simp only [mIndexAdd, if_neg hp, List.map_cons, List.mem_cons, ih]
      tauto

theorem indexKeysNodup_mIndexAdd (p : Str) (e : MemoryIndexEntry)
    (m : MemoryIndex) (h : IndexKeysNodup m) :
    IndexKeysNodup (mIndexAdd p e m) := by
  induction m with
  | nil => simp [mIndexAdd, IndexKeysNodup]
  | cons hd tl ih =>
    obtain ⟨p', e'⟩ := hd
    simp only [IndexKeysNodup, List.map_cons, List.nodup_cons] at h
    by_cases hp : p' = p
    · subst hp
      simpa [mIndexAdd, IndexKeysNodup] using h
    · simp only [mIndexAdd, if_neg hp, IndexKeysNodup, List.map_cons,
        List.nodup_cons]
      refine ⟨fun hc => ?_, ih h.2⟩
      rcases (mem_keys_mIndexAdd p e p' tl).1 hc with h2 | h2
      exacts [hp h2, h.1 h2]

theorem mem_keys_mIndexRemove (p q : Str) (m : MemoryIndex)
    (h : q ∈ (mIndexRemove p m).map Prod.fst) : q ∈ m.map Prod.fst := by
  induction m with
  | nil => exact h
  | cons hd tl ih =>
    obtain ⟨p', e'⟩ := hd
    by_cases hp : p' = p
    · rw [mIndexRemove, if_pos hp] at h
      exact List.mem_cons_of_mem _ h
    · rw [mIndexRemove, if_neg hp] at h
      simp only [List.map_cons, List.mem_cons] at h ⊢
      rcases h with h | h
      exacts [Or.inl h, Or.inr (ih h)]

theorem indexKeysNodup_mIndexRemove (p : Str) (m : MemoryIndex)
    (h : IndexKeysNodup m) : IndexKeysNodup (mIndexRemove p m) := by
  induction m with
  | nil => exact h
  | cons hd tl ih =>
    obtain ⟨p', e'⟩ := hd
    simp only [IndexKeysNodup, List.map_cons, List.nodup_cons] at h
    by_cases hp : p' = p
    · rw [mIndexRemove, if_pos hp]
      exact h.2
    · rw [mIndexRemove, if_neg hp]
      simp only [IndexKeysNodup, List.map_cons, List.nodup_cons]
      exact ⟨fun hc => h.1 (mem_keys_mIndexRemove p p' tl hc), ih h.2⟩

theorem mIndexGet_eq_none_of_not_mem (p : Str) (m : MemoryIndex)
    (h : p ∉ m.map Prod.fst) : mIndexGet p m = none := by
  induction m with
  | nil => rfl
  | cons hd tl ih =>
    obtain ⟨p', e'⟩ := hd
    simp only [List.map_cons, List.mem_cons, not_or] at h
    have : p' ≠ p := fun he => h.1 he.symm
    simp only [mIndexGet, if_neg this, ih h.2]

theorem mIndexGet_mIndexRemove_self (p : Str) (m : MemoryIndex)
    (hnd : IndexKeysNodup m) : mIndexGet p (mIndexRemove p m) = none := by
  induction m with
  | nil => rfl
  | cons hd tl ih =>
    obtain ⟨p', e'⟩ := hd
    simp only [IndexKeysNodup, List.map_cons, List.nodup_cons] at hnd
    by_cases hp : p' = p
    · rw [mIndexRemove, if_pos hp]
      exact mIndexGet_eq_none_of_not_mem p tl (hp ▸ hnd.1)
    · rw [mIndexRemove, if_neg hp]
      simp only [mIndexGet, if_neg hp]
      exact ih hnd.2

theorem mIndexGet_mIndexRemove_ne (p q : Str) (m : MemoryIndex)
    (h : p ≠ q) : mIndexGet q (mIndexRemove p m) = mIndexGet q m := by
  induction m with
  | nil => rfl
  | cons hd tl ih =>
    obtain ⟨p', e'⟩ := hd
    by_cases hp : p' = p
    · rw [mIndexRemove, if_pos hp]
      simp only [mIndexGet, if_neg (show p' ≠ q from fun he =>
        h ((hp.symm.trans he)))]
    · rw [mIndexRemove, if_neg hp]
      simp only [mIndexGet, ih]

/-- The per-path consistency invariant of the synchronization service:
cache keys are unique; every cached entry has non-empty tags, all its tag
paths present in the trie, and occurs in the trie in exactly the nodes along
its tags' prefixes; a path absent from the cache occurs in no trie node. -/
def GoodState (st : SyncState) : Prop :=
  IndexKeysNodup st.memoryIndex ∧
  (∀ p e, mIndexGet p st.memoryIndex = some e →
    e.frontmatter.tags ≠ [] ∧
    (∀ t ∈ e.frontmatter.tags,
      nodeExists st.tagSystem.root (splitDots t)) ∧
    (∀ σ, p ∈ filesAt st.tagSystem.root σ ↔
      ∃ t ∈ e.frontmatter.tags, σ ∈ segPrefixes (splitDots t))) ∧
  (∀ p, mIndexGet p st.memoryIndex = none →
    ∀ σ, p ∉ filesAt st.tagSystem.root σ)

theorem mem_filesAt_addTags_iff (f : Str) (T : List Str) (ts : TagSystem)
    (q : Str) (σ : List Str) :
    q ∈ filesAt (addTags f T ts).root σ ↔
      (q = f ∧ ∃ t ∈ T, σ ∈ segPrefixes (splitDots t)) ∨
        q ∈ filesAt ts.root σ := by
  rw [filesAt_addTags]
  by_cases hcond : ∃ t ∈ T, σ ∈ segPrefixes (splitDots t)
  · rw [if_pos hcond, Finset.mem_insert]
    constructor
    · rintro (rfl | h)
      exacts [Or.inl ⟨rfl, hcond⟩, Or.inr h]
    · rintro (⟨rfl, -⟩ | h)
      exacts [Or.inl rfl, Or.inr h]
  · rw [if_neg hcond]
    constructor
    · exact Or.inr
    · rintro (⟨-, hex⟩ | h)
      exacts [absurd hex hcond, h]

theorem mem_filesAt_removeTags_iff (f : Str) (T : List Str) (ts : TagSystem)
    (hT : ∀ t ∈ T, nodeExists ts.root (splitDots t)) (q : Str)
    (σ : List Str) :
    q ∈ filesAt (removeTags f T ts).root σ ↔
      q ∈ filesAt ts.root σ ∧
        ¬(q = f ∧ ∃ t ∈ T, σ ∈ segPrefixes (splitDots t)) := by
  rw [filesAt_removeTags f T ts hT]
  by_cases hcond : ∃ t ∈ T, σ ∈ segPrefixes (splitDots t)
  · rw [if_pos hcond, Finset.mem_erase]
    constructor
    · rintro ⟨hne, h⟩
      exact ⟨h, fun hc => hne hc.1⟩
    · rintro ⟨h, hn⟩
      exact ⟨fun he => hn ⟨he, hcond⟩, h⟩
  · rw [if_neg hcond]
    constructor
    · intro h
      exact ⟨h, fun hc => hcond hc.2⟩
    · exact And.left

/-- Core of the install step: adding the entry and its tags restores the
invariant, given that `path` no longer occurs anywhere in the intermediate
trie `ts1` and that `ts1` agrees with the old trie on every other document
and on node existence. -/
theorem installCore_goodState (st : SyncState) (path : Str)
    (parsed : ParsedMemoryFile) (ts1 : TagSystem)
    (hNT : parsed.frontmatter.tags ≠ [])
    (hnd : IndexKeysNodup st.memoryIndex)
    (hent : ∀ p e, mIndexGet p st.memoryIndex = some e →
      e.frontmatter.tags ≠ [] ∧
      (∀ t ∈ e.frontmatter.tags,
        nodeExists st.tagSystem.root (splitDots t)) ∧
      (∀ σ, p ∈ filesAt st.tagSystem.root σ ↔
        ∃ t ∈ e.frontmatter.tags, σ ∈ segPrefixes (splitDots t)))
    (habs : ∀ p, mIndexGet p st.memoryIndex = none →
      ∀ σ, p ∉ filesAt st.tagSystem.root σ)
    (hi : ∀ σ, path ∉ filesAt ts1.root σ)
    (hii : ∀ q, q ≠ path → ∀ σ,
      (q ∈ filesAt ts1.root σ ↔ q ∈ filesAt st.tagSystem.root σ))
    (hiii : ∀ σ, nodeExists ts1.root σ ↔ nodeExists st.tagSystem.root σ) :
    GoodState ⟨mIndexAdd path ⟨path, parsed.frontmatter, parsed.content⟩
        st.memoryIndex,
      addTags path parsed.frontmatter.tags ts1⟩ := by
  refine ⟨indexKeysNodup_mIndexAdd _ _ _ hnd, ?_, ?_⟩
  · intro q e hq
    simp only at hq
    rw [mIndexGet_mIndexAdd] at hq
    by_cases hpq : path = q
    · rw [if_pos hpq] at hq
      cases hq
      subst hpq
      refine ⟨hNT, ?_, ?_⟩
      · intro t ht
        simp only
        rw [nodeExists_addTags]
        exact Or.inl ⟨t, ht, self_mem_segPrefixes (splitSeg_ne_nil '.' t)⟩
      · intro σ
        simp only
        rw [mem_filesAt_addTags_iff]
        constructor
        · rintro (⟨-, hex⟩ | h)
          · exact hex
          · exact absurd h (hi σ)
        · intro hex
          exact Or.inl ⟨rfl, hex⟩
    · rw [if_neg hpq] at hq
      have hqne : q ≠ path := fun he => hpq he.symm
      have hEq := hent q e hq
      refine ⟨hEq.1, ?_, ?_⟩
      · intro t ht
        simp only
        rw [nodeExists_addTags]
        exact Or.inr ((hiii _).2 (hEq.2.1 t ht))
      · intro σ
        simp only
        rw [mem_filesAt_addTags_iff]
        constructor
        · rintro (⟨he, -⟩ | h)
          · exact absurd he hqne
          · exact (hEq.2.2 σ).1 ((hii q hqne σ).1 h)
        · intro hex
          exact Or.inr ((hii q hqne σ).2 ((hEq.2.2 σ).2 hex))
  · intro q hq σ
    simp only at hq ⊢
    rw [mIndexGet_mIndexAdd] at hq
    by_cases hpq : path = q
    · rw [if_pos hpq] at hq
      cases hq
    · rw [if_neg hpq] at hq
      have hqne : q ≠ path := fun he => hpq he.symm
      intro hmem
      rw [mem_filesAt_addTags_iff] at hmem
      rcases hmem with ⟨he, -⟩ | h
      · exact hqne he
      · exact habs q hq σ ((hii q hqne σ).1 h)

theorem installParsed_goodState (path : Str) (parsed : ParsedMemoryFile)
    (st : SyncState) (hG : GoodState st)
    (hNT : parsed.frontmatter.tags ≠ []) :
    GoodState (installParsed path parsed st) := by
  obtain ⟨hnd, hent, habs⟩ := hG
  unfold installParsed
  cases hOld : mIndexGet path st.memoryIndex with
  | some e0 =>
    have hE := hent path e0 hOld
    have hT : ∀ t ∈ e0.frontmatter.tags,
        nodeExists st.tagSystem.root (splitDots t) := hE.2.1
    refine installCore_goodState st path parsed _ hNT hnd hent habs ?_ ?_ ?_
    · intro σ hmem
      rw [mem_filesAt_removeTags_iff _ _ _ hT] at hmem
      exact hmem.2 ⟨rfl, (hE.2.2 σ).1 hmem.1⟩
    · intro q hq σ
      rw [mem_filesAt_removeTags_iff _ _ _ hT]
      constructor
      · rintro ⟨h, -⟩
        exact h
      · intro h
        exact ⟨h, fun hc => hq hc.1⟩
    · intro σ
      exact nodeExists_removeTags path e0.frontmatter.tags st.tagSystem σ
  | none =>
    refine installCore_goodState st path parsed st.tagSystem hNT hnd hent habs
      ?_ ?_ ?_
    · exact habs path hOld
    · intro q hq σ
      exact Iff.rfl
    · intro σ
      exact Iff.rfl

theorem evictPath_goodState (path : Str) (st : SyncState)
    (hG : GoodState st) : GoodState (evictPath path st) := by
  obtain ⟨hnd, hent, habs⟩ := hG
  unfold evictPath
  cases hOld : mIndexGet path st.memoryIndex with
  | none => exact ⟨hnd, hent, habs⟩
  | some e0 =>
    have hE := hent path e0 hOld
    refine ⟨indexKeysNodup_mIndexRemove _ _ hnd, ?_, ?_⟩
    · intro q e hq
      simp only at hq
      by_cases hpq : path = q
      · subst hpq
        rw [mIndexGet_mIndexRemove_self _ _ hnd] at hq
        cases hq
      · rw [mIndexGet_mIndexRemove_ne _ _ _ hpq] at hq
        have hEq := hent q e hq
        have hqne : q ≠ path := fun he => hpq he.symm
        refine ⟨hEq.1, ?_, ?_⟩
        · intro t ht
          simp only
          rw [nodeExists_removeTags]
          exact hEq.2.1 t ht
        · intro σ
          simp only
          rw [mem_filesAt_removeTags_iff _ _ _ hE.2.1]
          constructor
          · rintro ⟨h, -⟩
            exact (hEq.2.2 σ).1 h
          · intro hex
            exact ⟨(hEq.2.2 σ).2 hex, fun hc => hqne hc.1⟩
    · intro q hq σ hmem
      simp only at hq hmem
      rw [mem_filesAt_removeTags_iff _ _ _ hE.2.1] at hmem
      by_cases hpq : path = q
      · subst hpq
        exact hmem.2 ⟨rfl, (hE.2.2 σ).1 hmem.1⟩
      · rw [mIndexGet_mIndexRemove_ne _ _ _ hpq] at hq
        exact habs q hq σ hmem.1

theorem filesAt_empty_root (σ : List Str) :
    filesAt TagSystem.empty.root σ = ∅ := by
  cases σ with
  | nil => rfl
  | cons s σ' =>
    rw [filesAt_cons]
    show (match lookupChild s (createNode [] []).children with
      | some c => filesAt c σ'
      | none => (∅ : Finset Str)) = ∅
    simp [createNode, lookupChild]

theorem goodState_empty : GoodState SyncState.empty := by
  refine ⟨by simp [IndexKeysNodup, SyncState.empty], ?_, ?_⟩
  · intro p e hq
    cases hq
  · intro p hq σ
    show p ∉ filesAt TagSystem.empty.root σ
    rw [filesAt_empty_root]
    exact Finset.not_mem_empty _

theorem handleFileCreateOrChange_goodState (yload : Str → Except Str Yaml)
    (path : Str) (read : Option Str) (st : SyncState) (hG : GoodState st) :
    GoodState (handleFileCreateOrChange yload path read st) := by
  cases read with
  | none => exact hG
  | some content =>
    show GoodState (match MemoryFileParser_parse yload content with
      | .error _ => st
      | .ok parsed => installParsed path parsed st)
    cases hp : MemoryFileParser_parse yload content with
    | error e => exact hG
    | ok parsed =>
      exact installParsed_goodState path parsed st hG
        (parse_ok_tags_ne_nil yload content parsed hp)

theorem refreshFile_goodState (yload : Str → Except Str Yaml) (path : Str)
    (read : Option Str) (st : SyncState) (hG : GoodState st) :
    GoodState (refreshFile yload path read st) := by
  cases read with
  | none => exact evictPath_goodState path st hG
  | some content =>
    show GoodState (match MemoryFileParser_parse yload content with
      | .error _ => evictPath path st
      | .ok parsed => installParsed path parsed st)
    cases hp : MemoryFileParser_parse yload content with
    | error e => exact evictPath_goodState path st hG
    | ok parsed =>
      exact installParsed_goodState path parsed st hG
        (parse_ok_tags_ne_nil yload content parsed hp)

theorem synchronizeBatch_goodState (yload : Str → Except Str Yaml)
    (items : List (Str × Option Str)) (st : SyncState) (hG : GoodState st) :
    GoodState (synchronizeBatch yload items st) := by
  induction items generalizing st with
  | nil => exact hG
  | cons it items' ih =>
    exact ih _ (handleFileCreateOrChange_goodState yload it.1 it.2 st hG)

theorem applyEvent_goodState (yload : Str → Except Str Yaml)
    (st : SyncState) (ev : SyncEvent) (hG : GoodState st) :
    GoodState (applyEvent yload st ev) := by
  cases ev with
  | createOrChange path read =>
    exact handleFileCreateOrChange_goodState yload path read st hG
  | delete path => exact evictPath_goodState path st hG
  | refresh path read => exact refreshFile_goodState yload path read st hG
  | batch items => exact synchronizeBatch_goodState yload items st hG
  | clearAll => exact goodState_empty

theorem applyEvents_goodState (yload : Str → Except Str Yaml)
    (events : List SyncEvent) : GoodState (applyEvents yload events) := by
  rw [applyEvents]
  induction events using List.reverseRecOn with
  | nil => exact goodState_empty
  | append_singleton evs ev ih =>
    rw [List.foldl_append, List.foldl_cons, List.foldl_nil]
    exact applyEvent_goodState yload _ ev ih

/-- C4: in every state reachable from the empty state by any sequence of
synchronization-service operations, a document path occurs in some node of
the tag trie iff it is a key of the document cache — each step installs or
removes both together, so neither structure ends a step holding a path the
other lacks. -/
theorem C4_cache_trie_lockstep (yload : Str → Except Str Yaml)
    (events : List SyncEvent) (p : Str) :
    (∃ σ, p ∈ filesAt (applyEvents yload events).tagSystem.root σ) ↔
      (mIndexGet p (applyEvents yload events).memoryIndex).isSome := by
  obtain ⟨-, hent, habs⟩ := applyEvents_goodState yload events
  constructor
  · rintro ⟨σ, hmem⟩
    cases hq : mIndexGet p (applyEvents yload events).memoryIndex with
    | some e => rfl
    | none => exact absurd hmem (habs p hq σ)
  · intro hq
    cases hq2 : mIndexGet p (applyEvents yload events).memoryIndex with
    | none => rw [hq2] at hq; cases hq
    | some e =>
      have hE := hent p e hq2
      rcases List.exists_mem_of_ne_nil _ hE.1 with ⟨t, ht⟩
      exact ⟨splitDots t, (hE.2.2 (splitDots t)).2
        ⟨t, ht, self_mem_segPrefixes (splitSeg_ne_nil '.' t)⟩⟩

/-! ## Claims C1 and C5 -/

/-- Concrete YAML loader for the synchronization examples: header text `G`
parses to a valid frontmatter object (title `t`, tags `["a"]`), header text
`B` parses to an object missing `tags`, anything else fails to load. -/
def exYload1 : Str → Except Str Yaml := fun s =>
  if s = strL "G" then
    .ok (.obj [(strL "title", .str (strL "t")),
      (strL "tags", .seq [.str (strL "a")])])
  else if s = strL "B" then
    .ok (.obj [(strL "title", .str (strL "t"))])
  else .error (strL "bad")

def exGood1 : Str := strL "---\nG\n---\nbody"

def exBad1 : Str := strL "---\nB\n---\nbody"

/-- State after indexing the valid file: `/m/f.md` is Valid with tag `a`. -/
def exSt1 : SyncState :=
  handleFileCreateOrChange exYload1 (strL "/m/f.md") (some exGood1)
    SyncState.empty

/-- State after a change event whose new content fails validation. -/
def exSt1' : SyncState :=
  handleFileCreateOrChange exYload1 (strL "/m/f.md") (some exBad1) exSt1

/-- C1 counterexample: with `/m/f.md` Valid (tag `a`), a
`handleFileCreateOrChange` whose read succeeds but whose content fails
validation (missing `tags`) does **not** leave the path Absent: the record
is still in the cache and the path still owns tag `a` — the claimed
eviction does not happen. -/
theorem C1_counterexample :
    MemoryFileParser_parse exYload1 exBad1 =
      .error (.validation .missingTags) ∧
    (mIndexGet (strL "/m/f.md") exSt1.memoryIndex).isSome = true ∧
    (mIndexGet (strL "/m/f.md") exSt1'.memoryIndex).isSome = true ∧
    strL "/m/f.md" ∈ queryByTag exSt1'.tagSystem (strL "a") ∧
    strL "/m/f.md" ∈ filesAt exSt1'.tagSystem.root [strL "a"] := by
  refine ⟨rfl, rfl, rfl, ?_, ?_⟩ <;> decide

/-- Supporting lemma: a create-or-change whose content fails to parse is a
no-op on the state (the error only goes to the external reporter). -/
theorem createOrChange_parse_error_eq (yload : Str → Except Str Yaml)
    (path content : Str) (st : SyncState) (e : ParseErr)
    (h : MemoryFileParser_parse yload content = .error e) :
    handleFileCreateOrChange yload path (some content) st = st := by
  show (match MemoryFileParser_parse yload content with
    | .error _ => st
    | .ok parsed => installParsed path parsed st) = st
  rw [h]

/-- C1 (amended): when `handleFileCreateOrChange` reads the file
successfully but parsing or validation of the new content fails, the error
is reported (to the external error reporter) and the state is left
completely unchanged — in particular a previously Valid path keeps its old
record and old tags rather than becoming Absent.  (The eviction described
by the specification is performed by `refreshFile`, not by
`handleFileCreateOrChange`.) -/
theorem C1_createOrChange_parse_failure_noop (yload : Str → Except Str Yaml)
    (path content : Str) (st : SyncState) (e : ParseErr)
    (h : MemoryFileParser_parse yload content = .error e) :
    handleFileCreateOrChange yload path (some content) st = st :=
  createOrChange_parse_error_eq yload path content st e h

/-- C1 witness: the amended theorem applied at the concrete invalid file. -/
theorem C1_createOrChange_parse_failure_noop_witness :
    MemoryFileParser_parse exYload1 exBad1 =
      .error (.validation .missingTags) ∧
    handleFileCreateOrChange exYload1 (strL "/m/f.md") (some exBad1) exSt1 =
      exSt1 :=
  ⟨rfl, C1_createOrChange_parse_failure_noop exYload1 (strL "/m/f.md")
    exBad1 exSt1 (.validation .missingTags) rfl⟩

/-- C5: silent recovery.  For a path initially Absent (nowhere in the cache
and owning nothing in the trie or flat index), processing invalid content
leaves it Absent; after the file is replaced by valid content, one further
`handleFileCreateOrChange` installs exactly the new record and tags —
through the very same transition function, with no stored invalid state and
no manual reset. -/
theorem C5_silent_recovery (yload : Str → Except Str Yaml) (P : Str)
    (st : SyncState) (cbad cgood : Str) (e : ParseErr)
    (rec : ParsedMemoryFile)
    (habs : mIndexGet P st.memoryIndex = none)
    (hfresh : ∀ σ, P ∉ filesAt st.tagSystem.root σ)
    (hfreshF : ∀ k s, flatLookup k st.tagSystem.tagToFilesMap = some s →
      P ∉ s)
    (hbad : MemoryFileParser_parse yload cbad = .error e)
    (hgood : MemoryFileParser_parse yload cgood = .ok rec) :
    mIndexGet P (handleFileCreateOrChange yload P (some cbad)
      st).memoryIndex = none ∧
    mIndexGet P (handleFileCreateOrChange yload P (some cgood)
        (handleFileCreateOrChange yload P (some cbad) st)).memoryIndex =
      some ⟨P, rec.frontmatter, rec.content⟩ ∧
    (∀ σ, P ∈ filesAt (handleFileCreateOrChange yload P (some cgood)
        (handleFileCreateOrChange yload P (some cbad)
          st)).tagSystem.root σ ↔
      ∃ t ∈ rec.frontmatter.tags, σ ∈ segPrefixes (splitDots t)) ∧
    (∀ k, (∃ s, flatLookup k (handleFileCreateOrChange yload P (some cgood)
        (handleFileCreateOrChange yload P (some cbad)
          st)).tagSystem.tagToFilesMap = some s ∧ P ∈ s) ↔
      ∃ t ∈ rec.frontmatter.tags, k ∈ accPaths (splitDots t)) := by
  have hstep1 : handleFileCreateOrChange yload P (some cbad) st = st :=
    createOrChange_parse_error_eq yload P cbad st e hbad
  rw [hstep1]
  have hstep2 : handleFileCreateOrChange yload P (some cgood) st =
      installParsed P rec st := by
    show (match MemoryFileParser_parse yload cgood with
      | .error _ => st
      | .ok parsed => installParsed P parsed st) = _
    rw [hgood]
  rw [hstep2]
  have hinst : installParsed P rec st =
      { memoryIndex :=
          mIndexAdd P ⟨P, rec.frontmatter, rec.content⟩ st.memoryIndex,
        tagSystem := addTags P rec.frontmatter.tags st.tagSystem } := by
    simp only [installParsed, habs]
  rw [hinst]
  refine ⟨habs, ?_, ?_, ?_⟩
  · show mIndexGet P (mIndexAdd P ⟨P, rec.frontmatter, rec.content⟩
      st.memoryIndex) = _
    rw [mIndexGet_mIndexAdd, if_pos rfl]
  · intro σ
    show P ∈ filesAt (addTags P rec.frontmatter.tags st.tagSystem).root σ ↔ _
    rw [mem_filesAt_addTags_iff]
    constructor
    · rintro (⟨-, hex⟩ | h)
      · exact hex
      · exact absurd h (hfresh σ)
    · intro hex
      exact Or.inl ⟨rfl, hex⟩
  · intro k
    show (∃ s, flatLookup k (addTags P rec.frontmatter.tags
        st.tagSystem).tagToFilesMap = some s ∧ P ∈ s) ↔ _
    rw [flatLookup_addTags]
    by_cases hcond : ∃ t ∈ rec.frontmatter.tags, k ∈ accPaths (splitDots t)
    · rw [if_pos hcond]
      exact ⟨fun _ => hcond,
        fun _ => ⟨_, rfl, Finset.mem_insert_self P _⟩⟩
    · rw [if_neg hcond]
      constructor
      · rintro ⟨s, hs, hPs⟩
        exact absurd hPs (hfreshF k s hs)
      · intro hex
        exact absurd hex hcond

/-- The record produced by parsing `exGood1` with `exYload1`. -/
def exRec1 : ParsedMemoryFile :=
  ⟨⟨strL "t", [strL "a"],
    [(strL "title", .str (strL "t")), (strL "tags", .seq [.str (strL "a")])]⟩,
   strL "body"⟩

/-- The state after the failed step of the C5 scenario. -/
def exStBad5 : SyncState :=
  handleFileCreateOrChange exYload1 (strL "/m/f.md") (some exBad1)
    SyncState.empty

/-- The state after the recovery step of the C5 scenario. -/
def exSt5 : SyncState :=
  handleFileCreateOrChange exYload1 (strL "/m/f.md") (some exGood1) exStBad5

/-- C5 witness: the theorem applied to the empty state, the concrete invalid
file `exBad1` and the concrete valid file `exGood1`. -/
theorem C5_silent_recovery_witness :
    (mIndexGet (strL "/m/f.md") SyncState.empty.memoryIndex = none ∧
     MemoryFileParser_parse exYload1 exBad1 =
       .error (.validation .missingTags) ∧
     MemoryFileParser_parse exYload1 exGood1 = .ok exRec1) ∧
    mIndexGet (strL "/m/f.md") exStBad5.memoryIndex = none ∧
    mIndexGet (strL "/m/f.md") exSt5.memoryIndex =
      some ⟨strL "/m/f.md", exRec1.frontmatter, exRec1.content⟩ ∧
    (∀ σ, strL "/m/f.md" ∈ filesAt exSt5.tagSystem.root σ ↔
      ∃ t ∈ exRec1.frontmatter.tags, σ ∈ segPrefixes (splitDots t)) ∧
    (∀ k, (∃ s, flatLookup k exSt5.tagSystem.tagToFilesMap = some s ∧
        strL "/m/f.md" ∈ s) ↔
      ∃ t ∈ exRec1.frontmatter.tags, k ∈ accPaths (splitDots t)) :=
  ⟨⟨rfl, rfl, rfl⟩,
   C5_silent_recovery exYload1 (strL "/m/f.md") SyncState.empty exBad1
     exGood1 (.validation .missingTags) exRec1 rfl
     (fun σ => by
       rw [show SyncState.empty.tagSystem = TagSystem.empty from rfl,
         filesAt_empty_root]
       exact Finset.not_mem_empty _)
     (fun k s hs => by cases hs)
     rfl rfl⟩

/-! ### AsyncQueue (src/src/core/AsyncQueue.ts)

The class stores `queue : Array<() => Promise<void>>` and a `processing`
flag.  `enqueue` pushes the task and calls `processQueue`; `processQueue`
returns at once when `processing` is already set, otherwise it sets
`processing`, repeatedly shifts the head task, invokes it inside
`try`/`catch` (a rejection is logged to the console and does not stop the
loop) and awaits its settlement, and finally clears `processing`.  Under
JavaScript run-to-completion semantics the observable behaviour is a
labelled transition system with two events: `enqueue t` appends `t` to the
queue and, when no worker is running, synchronously starts the oldest
pending task; `settle ok` (the running task's promise settles — fulfilled
or, `ok = false`, rejected) lets the worker continue with the next pending
task or, when none is pending, clear `processing`.  `queue` and
`processing` are the fields of the class; `running`, `started` and
`completed` are history variables recording which task is in flight and in
which order tasks were started and finished. -/

structure AsyncQueue (α : Type) where
  queue : List α
  processing : Bool
  running : Option α
  started : List α
  completed : List α

/-- The two observable events of the queue: a client enqueues a task, or
the promise of the currently running task settles (`ok := false` is a
rejection, swallowed by the `catch` block of `processQueue`). -/
inductive QEvent (α : Type) where
  | enqueue (t : α)
  | settle (ok : Bool)

/-- One transition of `AsyncQueue`. -/
def qstep {α : Type} (s : AsyncQueue α) : QEvent α → AsyncQueue α
  | .enqueue t =>
    if s.processing then { s with queue := s.queue ++ [t] }
    else
      match s.queue ++ [t] with
      | [] => { s with queue := [] }
      | h :: rest =>
        { queue := rest, processing := true, running := some h,
          started := s.started ++ [h], completed := s.completed }
  | .settle _ok =>
    match s.running with
    | none => s
    | some t =>
      match s.queue with
      | [] =>
        { queue := [], processing := false, running := none,
          started := s.started, completed := s.completed ++ [t] }
      | h :: rest =>
        { queue := rest, processing := true, running := some h,
          started := s.started ++ [h], completed := s.completed ++ [t] }

/-- The initial state of a fresh `AsyncQueue`. -/
def qinit {α : Type} : AsyncQueue α := ⟨[], false, none, [], []⟩

/-- Running a sequence of events from the initial state. -/
def qrun {α : Type} (evs : List (QEvent α)) : AsyncQueue α :=
  evs.foldl qstep qinit

/-- The tasks arriving in an event sequence, in arrival order. -/
def qarrivals {α : Type} : List (QEvent α) → List α
  | [] => []
  | .enqueue t :: evs => t :: qarrivals evs
  | .settle _ :: evs => qarrivals evs

theorem qarrivals_cons {α : Type} (e : QEvent α) (evs : List (QEvent α)) :
    qarrivals (e :: evs) = qarrivals [e] ++ qarrivals evs := by
  cases e <;> simp [qarrivals]

theorem qstep_fifo {α : Type} (s : AsyncQueue α) (e : QEvent α)
    (h1 : s.started = s.completed ++ s.running.toList)
    (h2 : s.processing = false → s.running = none) :
    (qstep s e).started =
      (qstep s e).completed ++ (qstep s e).running.toList ∧
    ((qstep s e).processing = false → (qstep s e).running = none) ∧
    (qstep s e).started ++ (qstep s e).queue =
      (s.started ++ s.queue) ++ qarrivals [e] := by
  cases e with
  | enqueue t =>
    by_cases hp : s.processing
    · have hp' : s.processing = true := hp
      have hst : qstep s (.enqueue t) = { s with queue := s.queue ++ [t] } := by
        simp only [qstep, if_pos hp]
      rw [hst]
      refine ⟨h1, ?_, by simp [qarrivals]⟩
      intro hc
      rw [show ({ s with queue := s.queue ++ [t] } : AsyncQueue α).processing =
        s.processing from rfl, hp'] at hc
      cases hc
    · have hp' : s.processing = false := by simpa using hp
      have hr := h2 hp'
      cases hq : s.queue ++ [t] with
      | nil => simp at hq
      | cons h rest =>
        have hst : qstep s (.enqueue t) =
            { queue := rest, processing := true, running := some h,
              started := s.started ++ [h], completed := s.completed } := by
          simp only [qstep, if_neg hp, hq]
        rw [hst]
        refine ⟨?_, ?_, ?_⟩
        · show s.started ++ [h] = s.completed ++ (some h).toList
          rw [h1, hr]
          simp
        · intro hc
          cases hc
        · show (s.started ++ [h]) ++ rest =
            (s.started ++ s.queue) ++ qarrivals [QEvent.enqueue t]
          rw [show qarrivals [QEvent.enqueue t] = [t] from rfl,
            List.append_assoc, List.append_assoc, hq]
          rfl
  | settle ok =>
    cases hr : s.running with
    | none =>
      have hst : qstep s (.settle ok) = s := by
        simp only [qstep, hr]
      rw [hst]
      exact ⟨h1, h2, by simp [qarrivals]⟩
    | some t =>
      rw [hr] at h1
      cases hq : s.queue with
      | nil =>
        have hst : qstep s (.settle ok) =
            { queue := [], processing := false, running := none,
              started := s.started, completed := s.completed ++ [t] } := by
          simp only [qstep, hr, hq]
        rw [hst]
        refine ⟨?_, fun _ => rfl, ?_⟩
        · show s.started = (s.completed ++ [t]) ++ (none : Option α).toList
          rw [h1]
          simp
        · simp [qarrivals]
      | cons h rest =>
        have hst : qstep s (.settle ok) =
            { queue := rest, processing := true, running := some h,
              started := s.started ++ [h], completed := s.completed ++ [t] } := by
          simp only [qstep, hr, hq]
        rw [hst]
        refine ⟨?_, ?_, ?_⟩
        · show s.started ++ [h] = (s.completed ++ [t]) ++ (some h).toList
          rw [h1]
          simp
        · intro hc
          cases hc
        · simp [qarrivals]

theorem qrunFrom_fifo {α : Type} (evs : List (QEvent α)) (s : AsyncQueue α)
    (h1 : s.started = s.completed ++ s.running.toList)
    (h2 : s.processing = false → s.running = none) :
    (evs.foldl qstep s).started =
      (evs.foldl qstep s).completed ++ (evs.foldl qstep s).running.toList ∧
    ((evs.foldl qstep s).processing = false →
      (evs.foldl qstep s).running = none) ∧
    (evs.foldl qstep s).started ++ (evs.foldl qstep s).queue =
      (s.started ++ s.queue) ++ qarrivals evs := by
  induction evs generalizing s with
  | nil => exact ⟨h1, h2, by simp [qarrivals]⟩
  | cons e evs ih =>
    obtain ⟨g1, g2, g3⟩ := qstep_fifo s e h1 h2
    obtain ⟨r1, r2, r3⟩ := ih (qstep s e) g1 g2
    refine ⟨r1, r2, ?_⟩
    show (evs.foldl qstep (qstep s e)).started ++
        (evs.foldl qstep (qstep s e)).queue = _
    rw [r3, g3, qarrivals_cons e evs, List.append_assoc]

/-- C6: the `AsyncQueue` worker is sequential and FIFO.  In every state
reached by any event sequence: the tasks started so far are exactly the
settled ones followed by the (at most one) task currently in flight — so a
new task is only ever started after every previously started task's promise
has settled, and at most one task runs at a time; the tasks that arrived
are exactly the started ones followed by the still-pending queue, in
arrival order — so tasks are started in exactly FIFO arrival order with no
reordering and none skipped; and a settlement by rejection produces
exactly the same transition as a settlement by fulfilment — the `catch`
block isolates the failure and the worker continues with the next queued
task. -/
theorem C6_sequential_fifo_processing (α : Type) (evs : List (QEvent α)) :
    (qrun evs).started =
      (qrun evs).completed ++ (qrun evs).running.toList ∧
    qarrivals evs = (qrun evs).started ++ (qrun evs).queue ∧
    ∀ (s : AsyncQueue α), qstep s (.settle true) = qstep s (.settle false) := by
  obtain ⟨r1, r2, r3⟩ :=
    qrunFrom_fifo evs (qinit (α := α)) rfl (fun _ => rfl)
  refine ⟨r1, ?_, fun s => rfl⟩
  rw [show qrun evs = evs.foldl qstep qinit from rfl, r3]
  show _ = (([] : List α) ++ ([] : List α)) ++ qarrivals evs
  simp

/-! ### Markdown links (src/src/core/MarkdownLinkParser.ts,
src/src/core/LinkResolutionService.ts,
src/src/chat/ContentInjectionEngine.ts) -/

/-- Whether a string starts with the given pattern (JavaScript
`String.prototype.startsWith`, first argument the pattern). -/
def strStarts : Str → Str → Bool
  | [], _ => true
  | _ :: _, [] => false
  | a :: as, b :: bs => a == b && strStarts as bs

/-- Whether a string occurs as a contiguous substring. -/
def hasSub (sub : Str) : Str → Bool
  | [] => strStarts sub []
  | c :: rest => strStarts sub (c :: rest) || hasSub sub rest

/-- The URL test of `MarkdownLinkParser.isUrl` and
`LinkResolutionService.isUrl`: the path starts with `http://`, `https://`
or `//`. -/
def isUrl (p : Str) : Bool :=
  strStarts (strL "http://") p || strStarts (strL "https://") p ||
    strStarts (strL "//") p

/-- The character class `[a-zA-Z]`. -/
def isAsciiLetter (c : Char) : Bool :=
  ('a' ≤ c && c ≤ 'z') || ('A' ≤ c && c ≤ 'Z')

/-- The absolute-path test of `LinkResolutionService.isAbsolutePath` (and
`MarkdownLinkParser.isAbsolutePath`): the path starts with `/` or matches
the regular expression `^[a-zA-Z]:[\\/]`. -/
def isAbsolutePathS (p : Str) : Bool :=
  strStarts (strL "/") p ||
    match p with
    | c1 :: c2 :: c3 :: _ =>
      isAsciiLetter c1 && c2 == ':' && (c3 == '\\' || c3 == '/')
    | _ => false

/-- A parsed Markdown link (interface `ParsedLink` of
MarkdownLinkParser.ts). -/
structure ParsedLink where
  text : Str
  path : Str
  fullSyntax : Str
  startIndex : Nat
  endIndex : Nat

/-- The characters before the first occurrence of `c`, and the characters
after it; `none` when `c` does not occur.  This is how the greedy
character classes `[^\]]+` and `[^)]+` of the link regular expression
behave: each runs up to the first closing bracket. -/
def takeUntil (c : Char) : Str → Option (Str × Str)
  | [] => none
  | a :: as =>
    if a = c then some ([], as)
    else
      match takeUntil c as with
      | some p => some (a :: p.1, p.2)
      | none => none

/-- One attempt of the link pattern `\[([^\]]+)\]\(([^)]+)\)` at a
position, applied to the characters after the opening `[`: a non-empty
text up to the first `]`, immediately followed by `(`, a non-empty target
up to the first `)`.  Returns the text, the target and the remaining
characters after the closing `)`. -/
def matchLinkBody (s : Str) : Option (Str × Str × Str) :=
  match takeUntil ']' s with
  | none => none
  | some (text, s2) =>
    if text = [] then none
    else
      match s2 with
      | c2 :: s3 =>
        if c2 = '(' then
          match takeUntil ')' s3 with
          | none => none
          | some (target, s4) =>
            if target = [] then none else some (text, target, s4)
        else none
      | [] => none

/-- The scanner of `MarkdownLinkParser.parse`, one position at a time:
at an `[` not preceded by `!` (the lookbehind `(?<!!)`) the pattern is
attempted; on success the link is recorded and scanning resumes after the
closing `)` (the `lastIndex` of `exec`), otherwise scanning advances one
character.  `prev` is the character before the current position, `idx` the
current position, and the fuel — initially the string's length, an upper
bound on the number of positions ever visited — makes the recursion
structural. -/
def scanLinksF : Nat → Option Char → Nat → Str → List ParsedLink
  | 0, _, _, _ => []
  | _ + 1, _, _, [] => []
  | fuel + 1, prev, idx, c :: rest =>
    if c = '[' ∧ prev ≠ some '!' then
      match matchLinkBody rest with
      | some (text, target, s4) =>
        { text := text, path := target,
          fullSyntax := '[' :: text ++ ']' :: '(' :: target ++ [')'],
          startIndex := idx,
          endIndex := idx + (text.length + target.length + 4) } ::
          scanLinksF fuel (some ')')
            (idx + (text.length + target.length + 4)) s4
      | none => scanLinksF fuel (some c) (idx + 1) rest
    else scanLinksF fuel (some c) (idx + 1) rest

/-- `MarkdownLinkParser.parse`. -/
def MarkdownLinkParser_parse (content : Str) : List ParsedLink :=
  scanLinksF content.length none 0 content

/-- The result of resolving one link (interface `ResolvedLink` of
LinkResolutionService.ts); on success `error` is absent, on failure
`resolvedPath` and `content` are null. -/
structure ResolvedLink where
  originalPath : Str
  resolvedPath : Option Str
  content : Option Str
  error : Option Str

/-- JavaScript `Map.prototype.set`: update the key in place when present,
append otherwise. -/
def rlSet (k : Str) (v : ResolvedLink) :
    List (Str × ResolvedLink) → List (Str × ResolvedLink)
  | [] => [(k, v)]
  | (k', v') :: rest =>
    if k' = k then (k, v) :: rest else (k', v') :: rlSet k v rest

/-- JavaScript `Map.prototype.get`. -/
def rlGet (k : Str) : List (Str × ResolvedLink) → Option ResolvedLink
  | [] => none
  | (k', v') :: rest => if k' = k then some v' else rlGet k rest

/-- The resolution of a non-URL target against the base directory, as in
`resolveLinks`: absolute targets pass through unchanged, others are
resolved by the external `path.resolve` (the parameter `pres`) against the
base directory. -/
def resolveTarget (pres : Str → Str → Str) (baseDir k : Str) : Str :=
  if isAbsolutePathS k then k else pres baseDir k

/-- The entry `resolveLinks` stores for a given target: the failure entry
for URLs, otherwise the read outcome at the resolved path —
`readFileContent` wraps any failure into a message starting
`Failed to read file: `, caught by the `catch` of the loop body. -/
def entryFor (fs : Str → Except Str Str) (pres : Str → Str → Str)
    (baseDir k : Str) : ResolvedLink :=
  if isUrl k then ⟨k, none, none, some (strL "URLs are not resolved")⟩
  else
    match fs (resolveTarget pres baseDir k) with
    | .ok content =>
      ⟨k, some (resolveTarget pres baseDir k), some content, none⟩
    | .error m => ⟨k, none, none, some (strL "Failed to read file: " ++ m)⟩

/-- The loop of `LinkResolutionService.resolveLinks` over the parsed
links.  The file system is the parameter `fs` (reading a path either
yields its content or fails with a message); the accumulator carries the
result map and, as instrumentation, the log of paths whose read was
attempted. -/
def resolveLinksAux (fs : Str → Except Str Str) (pres : Str → Str → Str)
    (baseDir : Str) :
    List ParsedLink → List (Str × ResolvedLink) × List Str →
      List (Str × ResolvedLink) × List Str
  | [], acc => acc
  | link :: rest, acc =>
    if isUrl link.path then
      resolveLinksAux fs pres baseDir rest
        (rlSet link.path
          ⟨link.path, none, none, some (strL "URLs are not resolved")⟩ acc.1,
         acc.2)
    else
      match fs (resolveTarget pres baseDir link.path) with
      | .ok content =>
        resolveLinksAux fs pres baseDir rest
          (rlSet link.path
            ⟨link.path, some (resolveTarget pres baseDir link.path),
              some content, none⟩ acc.1,
           acc.2 ++ [resolveTarget pres baseDir link.path])
      | .error m =>
        resolveLinksAux fs pres baseDir rest
          (rlSet link.path
            ⟨link.path, none, none,
              some (strL "Failed to read file: " ++ m)⟩ acc.1,
           acc.2 ++ [resolveTarget pres baseDir link.path])

/-- `LinkResolutionService.resolveLinks`: the base directory is the
containing directory of the base file, computed by the external
`path.dirname` (the parameter `pdir`). -/
def resolveLinks (fs : Str → Except Str Str) (pdir : Str → Str)
    (pres : Str → Str → Str) (baseFilePath : Str)
    (links : List ParsedLink) : List (Str × ResolvedLink) × List Str :=
  resolveLinksAux fs pres (pdir baseFilePath) links ([], [])

/-- Replacing the span from index `a` (inclusive) to `b` (exclusive) by
`t`, as `substring(0, a) + t + substring(b)`. -/
def replaceSpan (s : Str) (a b : Nat) (t : Str) : Str :=
  s.take a ++ t ++ s.drop b

/-- The engine's `processLinksInContent`: parse the links of the content,
resolve them, replace each link span by its display text in decreasing
start-index order (the scanner emits links in strictly increasing start
index, so the descending sort of the source is the reverse of the parsed
list), then append a block for every map entry whose content is truthy
(JavaScript: non-null and non-empty), in map insertion order.  Returns
the processed content together with the log of attempted reads.  Note the
resolved contents are appended verbatim: they are never themselves
parsed for links. -/
def processLinksInContent (fs : Str → Except Str Str) (pdir : Str → Str)
    (pres : Str → Str → Str) (baseFilePath content : Str) :
    Str × List Str :=
  let links := MarkdownLinkParser_parse content
  if links.length = 0 then (content, [])
  else
    let rr := resolveLinks fs pdir pres baseFilePath links
    let processed := links.reverse.foldl
      (fun acc l => replaceSpan acc l.startIndex l.endIndex l.text) content
    let blocks := rr.1.foldl
      (fun acc kv =>
        match kv.2.content with
        | some c =>
          if c = [] then acc
          else acc ++ strL "\n\n---\n\n**Linked Content from: " ++ kv.1 ++
            strL "**\n\n" ++ c
        | none => acc) ([] : Str)
    (processed ++ blocks, rr.2)

theorem rlGet_rlSet (k k' : Str) (v : ResolvedLink)
    (m : List (Str × ResolvedLink)) :
    rlGet k (rlSet k' v m) = if k' = k then some v else rlGet k m := by
  induction m with
  | nil => simp [rlSet, rlGet]
  | cons hd tl ih =>
    obtain ⟨k0, v0⟩ := hd
    by_cases h0 : k0 = k' <;> by_cases hk : k0 = k <;>
      by_cases hk' : k' = k <;> simp_all [rlSet, rlGet]

theorem resolveLinksAux_cons (fs : Str → Except Str Str)
    (pres : Str → Str → Str) (baseDir : Str) (link : ParsedLink)
    (rest : List ParsedLink) (acc : List (Str × ResolvedLink) × List Str) :
    resolveLinksAux fs pres baseDir (link :: rest) acc =
      resolveLinksAux fs pres baseDir rest
        (rlSet link.path (entryFor fs pres baseDir link.path) acc.1,
         acc.2 ++ if isUrl link.path = true then []
           else [resolveTarget pres baseDir link.path]) := by
  by_cases hu : isUrl link.path = true
  · simp [resolveLinksAux, hu, entryFor]
  · cases hfs : fs (resolveTarget pres baseDir link.path) with
    | ok c => simp [resolveLinksAux, hu, entryFor, hfs]
    | error m => simp [resolveLinksAux, hu, entryFor, hfs]

theorem resolveLinksAux_get (fs : Str → Except Str Str)
    (pres : Str → Str → Str) (baseDir : Str) (links : List ParsedLink)
    (acc : List (Str × ResolvedLink) × List Str) (k : Str) :
    rlGet k (resolveLinksAux fs pres baseDir links acc).1 =
      if k ∈ links.map ParsedLink.path
      then some (entryFor fs pres baseDir k)
      else rlGet k acc.1 := by
  induction links generalizing acc with
  | nil => simp [resolveLinksAux]
  | cons link rest ih =>
    rw [resolveLinksAux_cons, ih, rlGet_rlSet]
    by_cases hm : k ∈ rest.map ParsedLink.path
    · have hm' : k ∈ (link :: rest).map ParsedLink.path := by
        simp only [List.map_cons, List.mem_cons]
        exact Or.inr hm
      rw [if_pos hm, if_pos hm']
    · rw [if_neg hm]
      by_cases he : link.path = k
      · subst he
        have hm' : link.path ∈ (link :: rest).map ParsedLink.path := by
          simp only [List.map_cons, List.mem_cons]
          exact Or.inl trivial
        have he' : link.path = link.path := rfl
        rw [if_pos he', if_pos hm']
      · have hm' : k ∉ (link :: rest).map ParsedLink.path := by
          simp only [List.map_cons, List.mem_cons]
          push_neg
          exact ⟨fun h => he h.symm, hm⟩
        rw [if_neg he, if_neg hm']

theorem resolveLinksAux_reads (fs : Str → Except Str Str)
    (pres : Str → Str → Str) (baseDir : Str) (links : List ParsedLink)
    (acc : List (Str × ResolvedLink) × List Str) :
    (resolveLinksAux fs pres baseDir links acc).2 =
      acc.2 ++ (links.filter (fun l => !isUrl l.path)).map
        (fun l => resolveTarget pres baseDir l.path) := by
  induction links generalizing acc with
  | nil => simp [resolveLinksAux]
  | cons link rest ih =>
    rw [resolveLinksAux_cons, ih]
    by_cases hu : isUrl link.path = true
    · simp [hu, List.filter_cons]
    · simp [hu, List.filter_cons]

/-- A concrete file system for the non-transitivity scenario: file X
exists and its body itself contains a Markdown link to file Y, which also
exists. -/
def fs8 : Str → Except Str Str := fun p =>
  if p = strL "/d/x.md" then .ok (strL "XCONTENT [y](y.md)")
  else if p = strL "/d/y.md" then .ok (strL "YCONTENT")
  else .error (strL "ENOENT")

/-- A concrete dirname for the scenario. -/
def pdir8 : Str → Str := fun p =>
  if p = strL "/d/base.md" then strL "/d" else strL ""

/-- A concrete resolve for the scenario: join with a slash. -/
def pres8 : Str → Str → Str := fun d r => d ++ '/' :: r

/-- The base document's content: one link to X, none to Y. -/
def exContent8 : Str := strL "see [x](x.md) end"

/-- The scenario's expanded output and read log. -/
def exOut8 : Str × List Str :=
  processLinksInContent fs8 pdir8 pres8 (strL "/d/base.md") exContent8

/-- C8: for every file system, external path functions, base path and link
list, `resolveLinks` returns a map in which the entry of each target of
the links — URL or not — is exactly `entryFor`: URL targets map to the
fixed failure entry, and every other target is resolved against the base
document's containing directory (absolute targets passed through
unchanged) and carries either the referenced file's content or a failure
reason; the reads attempted are exactly the resolved non-URL targets in
order, so no URL target ever causes a read.  And resolution is not
transitive: in the concrete scenario where the document links to file X
and X's body links to file Y, the expanded output contains X's body but
never Y's body, and only X's path is ever read. -/
theorem C8_link_resolution (fs : Str → Except Str Str) (pdir : Str → Str)
    (pres : Str → Str → Str) (base : Str) (links : List ParsedLink) :
    (∀ k, rlGet k (resolveLinks fs pdir pres base links).1 =
      if k ∈ links.map ParsedLink.path
      then some (entryFor fs pres (pdir base) k)
      else none) ∧
    (∀ l ∈ links, isUrl l.path = true →
      entryFor fs pres (pdir base) l.path =
        ⟨l.path, none, none, some (strL "URLs are not resolved")⟩) ∧
    ((resolveLinks fs pdir pres base links).2 =
      (links.filter (fun l => !isUrl l.path)).map
        (fun l => resolveTarget pres (pdir base) l.path)) ∧
    hasSub (strL "XCONTENT") exOut8.1 = true ∧
    hasSub (strL "YCONTENT") exOut8.1 = false ∧
    exOut8.2 = [strL "/d/x.md"] := by
  refine ⟨?_, ?_, ?_, by decide, by decide, by decide⟩
  · intro k
    rw [show resolveLinks fs pdir pres base links =
      resolveLinksAux fs pres (pdir base) links ([], []) from rfl,
      resolveLinksAux_get]
    rfl
  · intro l _hl hurl
    simp [entryFor, hurl]
  · rw [show resolveLinks fs pdir pres base links =
      resolveLinksAux fs pres (pdir base) links ([], []) from rfl,
      resolveLinksAux_reads]
    rfl

end MemMgr
